import Mathlib

/-!
The class `itis::HashTable` of `src/src/hash_table.cpp`.

A shallow embedding of the separate-chaining hash table with integer keys and
string values, and theorems about its operations.

Modelling decisions.

* A bucket (`std::list<std::pair<int, std::string>>`) is a `List (Int × String)`;
  the bucket vector `buckets_` is a list of buckets.
* `utils::hash(key, size)` is declared outside `hash_table.cpp`.  Every operation
  takes it as the parameter `hash : Int → Nat → Int` (key, bucket count, index).
* `buckets_[index]` with an index outside `[0, buckets_.size())` is undefined
  behaviour in C++.  The operations return `Option`; `none` stands for such an
  access.
* A `double` is a value of `Double`: NaN, an infinity, or a finite value given by
  its exact rational value.  A comparison with NaN is false.  The quotient
  `static_cast<double>(num_keys_) / capacity()` is the exact quotient rounded to
  the nearest binary64 value, ties to even (`fdiv`).
* `num_keys_` is a 32-bit `int`: `num_keys_++` wraps around in two's complement
  (`wrapInt32`), which is what the increment does on the usual targets.
* The number of buckets is not bounded, and allocation (of the bucket vector, of
  the `num_keys_` buckets asked for by `keys()`) does not fail.
-/

namespace itis

/-- One bucket: the pairs of a `std::list<std::pair<int, std::string>>` in list order. -/
abbrev Bucket := List (Int × String)

/-- A value of type `double`: NaN, an infinity, or a finite value given by its exact
rational value (the two zeros are one value). -/
inductive Double where
  | nan
  | negInf
  | posInf
  | finite (value : ℚ)
  deriving DecidableEq

/-- The comparison `a <= b` of two doubles; false when one of them is NaN. -/
def Double.le : Double → Double → Bool
  | Double.nan, _ => false
  | _, Double.nan => false
  | Double.negInf, _ => true
  | _, Double.posInf => true
  | Double.posInf, _ => false
  | _, Double.negInf => false
  | Double.finite a, Double.finite b => decide (a ≤ b)

/-- The comparison `a < b` of two doubles; false when one of them is NaN. -/
def Double.lt : Double → Double → Bool
  | Double.nan, _ => false
  | _, Double.nan => false
  | _, Double.negInf => false
  | Double.posInf, _ => false
  | Double.negInf, _ => true
  | _, Double.posInf => true
  | Double.finite a, Double.finite b => decide (a < b)

/-- The value of a 32-bit `int` after an arithmetic step that left the range: the result
modulo `2^32`, taken in `[-2^31, 2^31)`. -/
def wrapInt32 (x : Int) : Int := (x + 2147483648) % 4294967296 - 2147483648

/-- The least shift `k`, counted up from the given one, with `c * 2^52 <= a * 2^k`. -/
def normShift (a c : Nat) : Nat → Nat → Nat
  | 0, k => k
  | fuel + 1, k => if c * 2 ^ 52 ≤ a * 2 ^ k then k else normShift a c fuel (k + 1)

/-- The quotient `a / c` of two positive integers below `2^52 * c` as a binary64 value:
the pair `(m, k)` stands for `m / 2^k`, where `k` is the shift that brings the quotient
into `[2^52, 2^53)` and `m` is the shifted quotient rounded to the nearest integer, ties
to even. -/
def fdivNat (a c : Nat) : Nat × Nat :=
  if a = 0 then (0, 0)
  else
    let k := normShift a c (53 + c) 0
    let q := a * 2 ^ k / c
    let r := a * 2 ^ k % c
    (if c < 2 * r ∨ (2 * r = c ∧ q % 2 = 1) then q + 1 else q, k)

/-- The division `static_cast<double>(n) / c` of an `int` by a bucket count, in binary64
arithmetic: the conversions are exact and the quotient is rounded to nearest. -/
def fdiv (n : Int) (c : Nat) : Double :=
  if c = 0 then
    if n = 0 then Double.nan else if 0 < n then Double.posInf else Double.negInf
  else if n < 0 then
    Double.finite (-((fdivNat n.natAbs c).1 : ℚ) / 2 ^ (fdivNat n.natAbs c).2)
  else
    Double.finite (((fdivNat n.natAbs c).1 : ℚ) / 2 ^ (fdivNat n.natAbs c).2)

/-- The fields of `HashTable`: `load_factor_` is a `double`, `num_keys_` a 32-bit `int`
(every operation leaves it in `[-2^31, 2^31)`), `buckets_` the bucket vector. -/
structure HashTable where
  load_factor_ : Double
  num_keys_ : Int
  buckets_ : List Bucket
  deriving DecidableEq

/-- Modelled from the spec: `kGrowthCoefficient` is declared in the header, which is
not part of the sources at hand; the spec gives the growth coefficient as 2. -/
def kGrowthCoefficient : Nat := 2

/-- Modelled from the spec: the initial value of `num_keys_` is given by the member
declaration in the header, which is not part of the sources at hand; the spec says
that a new table has `size = 0`. -/
def num_keys_init : Int := 0

/-- Modelled from the spec: `utils::hash` is defined outside `hash_table.cpp`.  The spec
describes it as an integer hash of the key reduced modulo the capacity and made
non-negative; `h` is that integer hash of the key. -/
def utils.hash (h : Int → Nat) (key : Int) (size : Nat) : Int :=
  ((h key % size : Nat) : Int)

/-- The conversion of an `int` key to an unsigned 64-bit word, the usual integer hash. -/
def wordHash (key : Int) : Nat := (key % 2 ^ 64).toNat

/-- `HashTable::capacity`. -/
def HashTable.capacity (t : HashTable) : Nat := t.buckets_.length

/-- `HashTable::size`: the `int` counter `num_keys_`. -/
def HashTable.size (t : HashTable) : Int := t.num_keys_

/-- `HashTable::empty`. -/
def HashTable.empty (t : HashTable) : Bool := t.size == 0

/-- `HashTable::load_factor`. -/
def HashTable.load_factor (t : HashTable) : Double := t.load_factor_

/-- `HashTable::hash`: the bucket index of a key for the current bucket count. -/
def HashTable.hash (hash : Int → Nat → Int) (t : HashTable) (key : Int) : Int :=
  hash key t.buckets_.length

/-- The access `buckets[index]`: `none` when the index is out of range. -/
def bucketAt (buckets : List Bucket) (index : Int) : Option Bucket :=
  if 0 ≤ index then buckets[index.toNat]? else none

/-- The constructor `HashTable::HashTable(capacity, load_factor)`; `none` when it throws. -/
def Construct (capacity : Int) (load_factor : Double) : Option HashTable :=
  if capacity ≤ 0 then none
  else if Double.le load_factor (Double.finite 0) || Double.lt (Double.finite 1) load_factor
  then none
  else some
    { load_factor_ := load_factor
      num_keys_ := num_keys_init
      buckets_ := List.replicate capacity.toNat [] }

/-- The scan of `Search` over one bucket: the value of the first pair with the key. -/
def searchBucket (key : Int) : Bucket → Option String
  | [] => none
  | pair :: rest => if pair.1 = key then some pair.2 else searchBucket key rest

/-- `HashTable::Search`.  The outer `Option` is the bucket access, the inner one the
`std::optional` result. -/
def Search (hash : Int → Nat → Int) (t : HashTable) (key : Int) : Option (Option String) :=
  let index := t.hash hash key
  match bucketAt t.buckets_ index with
  | none => none
  | some bucket => if !bucket.isEmpty then some (searchBucket key bucket) else some none

/-- `HashTable::ContainsKey`. -/
def ContainsKey (hash : Int → Nat → Int) (t : HashTable) (key : Int) : Option Bool :=
  (Search hash t key).map Option.isSome

/-- The scan of `Put` over one bucket: the first pair with the key gets the new value;
the flag is `alreadyHasKey`. -/
def putBucket (key : Int) (value : String) : Bucket → Bucket × Bool
  | [] => ([], false)
  | pair :: rest =>
    if pair.1 = key then ((pair.1, value) :: rest, true)
    else (pair :: (putBucket key value rest).1, (putBucket key value rest).2)

/-- The loop of the resize branch of `Put`: every non-empty old bucket is stored, whole,
at the index of the key of its first pair. -/
def redistribute (hash : Int → Nat → Int) : List Bucket → List Bucket → Option (List Bucket)
  | [], newBuckets => some newBuckets
  | list :: rest, newBuckets =>
    if !list.isEmpty then
      match list.head? with
      | none => none
      | some front =>
        let newIndex := hash front.1 newBuckets.length
        if 0 ≤ newIndex ∧ newIndex.toNat < newBuckets.length then
          redistribute hash rest (newBuckets.set newIndex.toNat list)
        else none
    else redistribute hash rest newBuckets

/-- Lines 39 to 52 of `Put` on the bucket of the key: the scan, then the append when the
scan did not find the key. -/
def putInBucket (key : Int) (value : String) (bucket : Bucket) : Bucket :=
  let scanned := if !bucket.isEmpty then putBucket key value bucket else (bucket, false)
  if !scanned.2 then scanned.1 ++ [(key, value)] else scanned.1

/-- The resize branch of `Put`: `capacity() * kGrowthCoefficient` empty buckets, then the
loop over the old buckets. -/
def resize (hash : Int → Nat → Int) (buckets : List Bucket) : Option (List Bucket) :=
  redistribute hash buckets (List.replicate (buckets.length * kGrowthCoefficient) [])

/-- `HashTable::Put`. -/
def Put (hash : Int → Nat → Int) (t : HashTable) (key : Int) (value : String) :
    Option HashTable :=
  let index := t.hash hash key
  match bucketAt t.buckets_ index with
  | none => none
  | some bucket =>
    let buckets1 := t.buckets_.set index.toNat (putInBucket key value bucket)
    let num_keys := wrapInt32 (t.num_keys_ + 1)
    if Double.le t.load_factor_ (fdiv num_keys buckets1.length) then
      match resize hash buckets1 with
      | none => none
      | some newBuckets =>
        some { load_factor_ := t.load_factor_, num_keys_ := num_keys, buckets_ := newBuckets }
    else
      some { load_factor_ := t.load_factor_, num_keys_ := num_keys, buckets_ := buckets1 }

/-- The scan of `Remove` over one bucket: the first pair with the key (`removingPair`). -/
def findPair (key : Int) : Bucket → Option (Int × String)
  | [] => none
  | pair :: rest => if pair.1 = key then some pair else findPair key rest

/-- `std::list::remove(value)`: erases every element equal to the value. -/
def listRemove (bucket : Bucket) (value : Int × String) : Bucket :=
  bucket.filter (fun pair => !decide (pair = value))

/-- `HashTable::Remove`: the returned value and the table afterwards. -/
def Remove (hash : Int → Nat → Int) (t : HashTable) (key : Int) :
    Option (Option String × HashTable) :=
  let index := t.hash hash key
  match bucketAt t.buckets_ index with
  | none => none
  | some bucket =>
    if !bucket.isEmpty then
      match findPair key bucket with
      | some removingPair =>
        some (some removingPair.2,
          { t with buckets_ := t.buckets_.set index.toNat (listRemove bucket removingPair) })
      | none => some (none, t)
    else some (none, t)

/-- `HashTable::keys`: every key of every bucket, inserted into a set. -/
def keys (t : HashTable) : Finset Int :=
  t.buckets_.foldl (fun acc bucket => bucket.foldl (fun acc pair => insert pair.1 acc) acc) ∅

/-- `HashTable::values`: every value, in bucket order and then in pair order. -/
def values (t : HashTable) : List String :=
  t.buckets_.foldl (fun acc bucket => bucket.foldl (fun acc pair => acc ++ [pair.2]) acc) []

/-- A call of one of the two mutating operations. -/
inductive Op where
  | put (key : Int) (value : String)
  | remove (key : Int)
  deriving DecidableEq

/-- The table after one call. -/
def applyOp (hash : Int → Nat → Int) (t : HashTable) : Op → Option HashTable
  | Op.put key value => Put hash t key value
  | Op.remove key => (Remove hash t key).map Prod.snd

/-- The table after a sequence of calls, first call first. -/
def runOps (hash : Int → Nat → Int) : HashTable → List Op → Option HashTable
  | t, [] => some t
  | t, op :: rest =>
    match applyOp hash t op with
    | none => none
    | some t1 => runOps hash t1 rest

/-- A table obtained from a successful construction by `Put` and `Remove` calls. -/
def Reachable (hash : Int → Nat → Int) (t : HashTable) : Prop :=
  ∃ (capacity : Int) (load_factor : Double) (t0 : HashTable) (ops : List Op),
    Construct capacity load_factor = some t0 ∧ runOps hash t0 ops = some t

/-- The hash used in the examples: the key as an unsigned word, modulo the bucket count. -/
def modHash : Int → Nat → Int := utils.hash wordHash

/-- Reference definition of `Search`, after the spec: the value of the first pair whose
key is the given key in the bucket at the index of the key, or absent. -/
def Search_spec (hash : Int → Nat → Int) (t : HashTable) (key : Int) :
    Option (Option String) :=
  (bucketAt t.buckets_ (hash key t.capacity)).map
    (fun bucket => (bucket.find? (fun pair => pair.1 == key)).map Prod.snd)

/-- No bucket holds two pairs with the same key. -/
def KeysNodup (buckets : List Bucket) : Prop :=
  ∀ bucket ∈ buckets, (bucket.map Prod.fst).Nodup

/-- Reference definition, after the spec: the key is inserted and not removed when some
`put key _` occurs in the sequence with no `remove key` after it. -/
def insertedNotRemoved (key : Int) : List Op → Bool
  | [] => false
  | Op.put k _ :: rest =>
    (k == key && !rest.contains (Op.remove key)) || insertedNotRemoved key rest
  | Op.remove _ :: rest => insertedNotRemoved key rest

/-- The growth test of `Put` for a call on table `t` that produced table `t1`: the size
after the call divided by the capacity before it, in double arithmetic, is at least the
load factor. -/
def growthTest (t t1 : HashTable) : Prop :=
  Double.le t.load_factor (fdiv t1.size t.capacity) = true

instance (t t1 : HashTable) : Decidable (growthTest t t1) := by
  unfold growthTest
  infer_instance

/-- The number of `Put` calls of a run at which the growth test holds. -/
def growths (hash : Int → Nat → Int) : HashTable → List Op → Nat
  | _, [] => 0
  | t, op :: rest =>
    match applyOp hash t op with
    | none => 0
    | some t1 =>
      (match op with
        | Op.put _ _ => if growthTest t t1 then 1 else 0
        | Op.remove _ => 0) + growths hash t1 rest

/-- The total number of pairs over all buckets. -/
def pairCount (t : HashTable) : Nat :=
  (t.buckets_.map List.length).sum

/-- All the pairs of a bucket vector, bucket after bucket. -/
def allPairs (buckets : List Bucket) : List (Int × String) :=
  buckets.flatten

/-- The number of `Put` calls in a sequence of calls. -/
def countPuts : List Op → Nat
  | [] => 0
  | Op.put _ _ :: rest => countPuts rest + 1
  | Op.remove _ :: rest => countPuts rest


theorem modHash_range (key : Int) (n : Nat) (hn : 0 < n) :
    0 ≤ modHash key n ∧ modHash key n < n := by
  unfold modHash utils.hash
  refine ⟨Int.natCast_nonneg _, ?_⟩
  exact_mod_cast Nat.mod_lt _ hn

theorem searchBucket_eq_find (key : Int) (bucket : Bucket) :
    searchBucket key bucket = (bucket.find? (fun pair => pair.1 == key)).map Prod.snd := by
  induction bucket with
  | nil => rfl
  | cons pair rest ih =>
    by_cases h : pair.1 = key
    · simp [searchBucket, List.find?_cons, h]
    · simp [searchBucket, List.find?_cons, h, ih]

theorem searchBucket_eq_none_iff (key : Int) (bucket : Bucket) :
    searchBucket key bucket = none ↔ ∀ pair ∈ bucket, pair.1 ≠ key := by
  induction bucket with
  | nil => simp [searchBucket]
  | cons pair rest ih =>
    by_cases h : pair.1 = key
    · simp [searchBucket, h]
    · simp [searchBucket, h, ih]

theorem findPair_eq_none_iff (key : Int) (bucket : Bucket) :
    findPair key bucket = none ↔ searchBucket key bucket = none := by
  induction bucket with
  | nil => simp [searchBucket, findPair]
  | cons pair rest ih =>
    by_cases h : pair.1 = key
    · simp [searchBucket, findPair, h]
    · simp [searchBucket, findPair, h, ih]

theorem findPair_of_searchBucket (key : Int) (value : String) (bucket : Bucket)
    (h : searchBucket key bucket = some value) :
    findPair key bucket = some (key, value) ∧ (key, value) ∈ bucket := by
  induction bucket with
  | nil => simp [searchBucket] at h
  | cons pair rest ih =>
    by_cases hk : pair.1 = key
    · simp only [searchBucket, hk, if_true, Option.some.injEq] at h
      have hp : pair = (key, value) := Prod.ext hk h
      simp [findPair, hk, hp]
    · simp only [searchBucket, hk, if_false] at h
      have := ih h
      simp [findPair, hk, this.1, this.2]

theorem foldl_keys_nil (buckets : List Bucket) (acc : Finset Int)
    (h : ∀ bucket ∈ buckets, bucket = []) :
    buckets.foldl (fun acc bucket => bucket.foldl (fun acc pair => insert pair.1 acc) acc) acc
      = acc := by
  induction buckets generalizing acc with
  | nil => rfl
  | cons bucket rest ih =>
    have hb : bucket = [] := h bucket (List.mem_cons_self _ _)
    subst hb
    simpa using ih acc (fun b hb => h b (List.mem_cons_of_mem _ hb))

theorem foldl_values_nil (buckets : List Bucket) (acc : List String)
    (h : ∀ bucket ∈ buckets, bucket = []) :
    buckets.foldl (fun acc bucket => bucket.foldl (fun acc pair => acc ++ [pair.2]) acc) acc
      = acc := by
  induction buckets generalizing acc with
  | nil => rfl
  | cons bucket rest ih =>
    have hb : bucket = [] := h bucket (List.mem_cons_self _ _)
    subst hb
    simpa using ih acc (fun b hb => h b (List.mem_cons_of_mem _ hb))

theorem bucketAt_eq_some_iff (buckets : List Bucket) (index : Int) (bucket : Bucket) :
    bucketAt buckets index = some bucket ↔ 0 ≤ index ∧ buckets[index.toNat]? = some bucket := by
  unfold bucketAt
  by_cases h : 0 ≤ index <;> simp [h]

theorem bucketAt_isSome_of_range (buckets : List Bucket) (index : Int)
    (h0 : 0 ≤ index) (h1 : index < buckets.length) :
    ∃ bucket, bucketAt buckets index = some bucket ∧ bucket ∈ buckets := by
  have hlt : index.toNat < buckets.length := by omega
  refine ⟨buckets[index.toNat], ?_, List.getElem_mem _⟩
  simp [bucketAt, h0, List.getElem?_eq_getElem hlt]

@[simp]
theorem Double_le_finite (a b : ℚ) :
    Double.le (Double.finite a) (Double.finite b) = decide (a ≤ b) := rfl

@[simp]
theorem Double_lt_finite (a b : ℚ) :
    Double.lt (Double.finite a) (Double.finite b) = decide (a < b) := rfl

/-- The constructor on a finite load factor. -/
theorem Construct_finite (capacity : Int) (q : ℚ) :
    Construct capacity (Double.finite q) =
      if capacity ≤ 0 ∨ q ≤ 0 ∨ 1 < q then none
      else some (HashTable.mk (Double.finite q) num_keys_init
        (List.replicate capacity.toNat [])) := by
  unfold Construct
  by_cases hc : capacity ≤ 0
  · simp [hc]
  · by_cases h0 : q ≤ 0
    · simp [hc, h0, Double_le_finite]
    · by_cases h1 : 1 < q
      · simp [hc, h1, Double_lt_finite]
      · simp [hc, h0, h1, Double_le_finite, Double_lt_finite]

/-- C7: the claim is that `Construct(capacity, load_factor)` fails exactly when
`capacity <= 0` or `load_factor` is not in `(0, 1]`.  That holds for every finite load
factor and for the infinities.  For the load factor NaN the two comparisons of the
constructor are both false, so `HashTable(8, NaN)` is constructed although NaN is not in
`(0, 1]`. -/
theorem Construct_accepts_nan :
    Construct 8 Double.nan = some ⟨Double.nan, 0, [[], [], [], [], [], [], [], []]⟩ ∧
    Double.lt (Double.finite 0) Double.nan = false ∧
    Double.le Double.nan (Double.finite 1) = false ∧
    (∀ (capacity : Int) (q : ℚ),
      Construct capacity (Double.finite q) = none ↔ (capacity ≤ 0 ∨ ¬ (0 < q ∧ q ≤ 1))) ∧
    (∀ (capacity : Int),
      Construct capacity Double.posInf = none ∧ Construct capacity Double.negInf = none) := by
  refine ⟨by decide, rfl, rfl, ?_, ?_⟩
  · intro capacity q
    rw [Construct_finite]
    by_cases hc : capacity ≤ 0
    · simp [hc]
    · by_cases h0 : q ≤ 0
      · simp only [hc, h0, true_or, or_true, if_true, false_or, true_iff]
        exact fun h => absurd h.1 (not_lt.mpr h0)
      · by_cases h1 : 1 < q
        · simp only [hc, h1, or_true, if_true, false_or, true_iff]
          exact fun h => absurd h.2 (not_le.mpr h1)
        · push_neg at h0 h1
          simp [hc, not_le.mpr h0, not_lt.mpr h1, h0, h1]
  · intro capacity
    unfold Construct
    by_cases hc : capacity ≤ 0
    · simp [hc]
    · simp [hc, Double.le, Double.lt]

/-- C8: for `capacity > 0` and a load factor in `(0, 1]` the constructed table has the
requested capacity, only empty buckets, size 0 (so `empty()` holds), no keys, no values,
`Search` absent for every key (the hash being an index in range), and the requested load
factor. -/
theorem Construct_fresh (hash : Int → Nat → Int) (capacity : Int) (load_factor : ℚ)
    (hcap : 0 < capacity) (hlf : 0 < load_factor ∧ load_factor ≤ 1)
    (hrange : ∀ (key : Int) (n : Nat), 0 < n → 0 ≤ hash key n ∧ hash key n < n) :
    ∃ t, Construct capacity (Double.finite load_factor) = some t ∧
      (t.capacity : Int) = capacity ∧
      (∀ bucket ∈ t.buckets_, bucket = []) ∧
      t.size = 0 ∧ t.empty = true ∧
      keys t = ∅ ∧ values t = [] ∧
      (∀ key, Search hash t key = some none) ∧
      t.load_factor = Double.finite load_factor := by
  have hl : ¬ (capacity ≤ 0 ∨ load_factor ≤ 0 ∨ 1 < load_factor) := by
    push_neg
    exact ⟨hcap, hlf.1, hlf.2⟩
  have hall : ∀ bucket ∈ List.replicate capacity.toNat ([] : Bucket), bucket = [] :=
    fun bucket hb => List.eq_of_mem_replicate hb
  refine ⟨{ load_factor_ := Double.finite load_factor, num_keys_ := num_keys_init,
            buckets_ := List.replicate capacity.toNat [] },
    by rw [Construct_finite]; simp only [hl, if_false], ?_, hall, rfl, rfl, ?_, ?_, ?_, rfl⟩
  · simp only [HashTable.capacity, List.length_replicate]
    omega
  · exact foldl_keys_nil _ _ hall
  · exact foldl_values_nil _ _ hall
  · intro key
    have hpos : 0 < capacity.toNat := by omega
    have hr := hrange key capacity.toNat hpos
    obtain ⟨bucket, hb, hmem⟩ := bucketAt_isSome_of_range
      (List.replicate capacity.toNat ([] : Bucket)) (hash key capacity.toNat) hr.1
      (by simpa using hr.2)
    have hnil : bucket = [] := hall bucket hmem
    subst hnil
    simp only [Search, HashTable.hash, List.length_replicate, hb]
    rfl

theorem Construct_fresh_witness :
    (0 : Int) < 8 ∧ ((0 : ℚ) < 3 / 4 ∧ (3 / 4 : ℚ) ≤ 1) ∧
    (∀ (key : Int) (n : Nat), 0 < n → 0 ≤ modHash key n ∧ modHash key n < n) ∧
    ∃ t, Construct 8 (Double.finite (3 / 4)) = some t ∧
      (t.capacity : Int) = 8 ∧
      (∀ bucket ∈ t.buckets_, bucket = []) ∧
      t.size = 0 ∧ t.empty = true ∧
      keys t = ∅ ∧ values t = [] ∧
      (∀ key, Search modHash t key = some none) ∧
      t.load_factor = Double.finite (3 / 4) :=
  ⟨by decide, by norm_num, modHash_range,
    Construct_fresh modHash 8 (3 / 4) (by decide) (by norm_num) modHash_range⟩


theorem wrapInt32_of_range (x : Int) (h0 : -2147483648 ≤ x) (h1 : x < 2147483648) :
    wrapInt32 x = x := by
  unfold wrapInt32
  omega

theorem wrapInt32_range (x : Int) :
    -2147483648 ≤ wrapInt32 x ∧ wrapInt32 x < 2147483648 := by
  unfold wrapInt32
  omega

theorem wrapInt32_add (x y : Int) : wrapInt32 (wrapInt32 x + y) = wrapInt32 (x + y) := by
  unfold wrapInt32
  omega

@[simp]
theorem wrapInt32_1 : wrapInt32 1 = 1 := by decide

@[simp]
theorem wrapInt32_2 : wrapInt32 2 = 2 := by decide

@[simp]
theorem wrapInt32_3 : wrapInt32 3 = 3 := by decide

@[simp]
theorem wrapInt32_4 : wrapInt32 4 = 4 := by decide

/-- The quotient of a non-negative `int` by a positive bucket count, from its mantissa and
shift. -/
theorem fdiv_of_fdivNat (n : Int) (c m k : Nat) (hc : c ≠ 0) (hn : 0 ≤ n)
    (h : fdivNat n.natAbs c = (m, k)) :
    fdiv n c = Double.finite ((m : ℚ) / 2 ^ k) := by
  unfold fdiv
  simp only [hc, if_false, not_lt.mpr hn, h]

set_option maxRecDepth 100000 in
theorem fdivNat_1_2 : fdivNat 1 2 = (4503599627370496, 53) := by decide

set_option maxRecDepth 100000 in
theorem fdivNat_2_2 : fdivNat 2 2 = (4503599627370496, 52) := by decide

set_option maxRecDepth 100000 in
theorem fdivNat_1_4 : fdivNat 1 4 = (4503599627370496, 54) := by decide

set_option maxRecDepth 100000 in
theorem fdivNat_2_4 : fdivNat 2 4 = (4503599627370496, 53) := by decide

set_option maxRecDepth 100000 in
theorem fdivNat_3_4 : fdivNat 3 4 = (6755399441055744, 53) := by decide

set_option maxRecDepth 100000 in
theorem fdivNat_4_4 : fdivNat 4 4 = (4503599627370496, 52) := by decide

set_option maxRecDepth 100000 in
theorem fdivNat_1_10 : fdivNat 1 10 = (7205759403792794, 56) := by decide

set_option maxRecDepth 100000 in
theorem fdivNat_2_10 : fdivNat 2 10 = (7205759403792794, 55) := by decide

@[simp]
theorem fdiv_1_2 : fdiv 1 2 = Double.finite (1 / 2) := by
  rw [fdiv_of_fdivNat 1 2 _ _ (by decide) (by decide) fdivNat_1_2]
  congr 1
  norm_num

@[simp]
theorem fdiv_2_2 : fdiv 2 2 = Double.finite 1 := by
  rw [fdiv_of_fdivNat 2 2 _ _ (by decide) (by decide) fdivNat_2_2]
  congr 1
  norm_num

@[simp]
theorem fdiv_1_4 : fdiv 1 4 = Double.finite (1 / 4) := by
  rw [fdiv_of_fdivNat 1 4 _ _ (by decide) (by decide) fdivNat_1_4]
  congr 1
  norm_num

@[simp]
theorem fdiv_2_4 : fdiv 2 4 = Double.finite (1 / 2) := by
  rw [fdiv_of_fdivNat 2 4 _ _ (by decide) (by decide) fdivNat_2_4]
  congr 1
  norm_num

@[simp]
theorem fdiv_3_4 : fdiv 3 4 = Double.finite (3 / 4) := by
  rw [fdiv_of_fdivNat 3 4 _ _ (by decide) (by decide) fdivNat_3_4]
  congr 1
  norm_num

@[simp]
theorem fdiv_4_4 : fdiv 4 4 = Double.finite 1 := by
  rw [fdiv_of_fdivNat 4 4 _ _ (by decide) (by decide) fdivNat_4_4]
  congr 1
  norm_num

/-- The quotient `1.0 / 10` is the binary64 value nearest to one tenth, which is above one
tenth. -/
theorem fdiv_1_10 : fdiv 1 10 = Double.finite (3602879701896397 / 36028797018963968) := by
  rw [fdiv_of_fdivNat 1 10 _ _ (by decide) (by decide) fdivNat_1_10]
  congr 1
  norm_num

/-- The quotient `2.0 / 10` is the binary64 value nearest to one fifth, which is above one
fifth. -/
theorem fdiv_2_10 : fdiv 2 10 = Double.finite (3602879701896397 / 18014398509481984) := by
  rw [fdiv_of_fdivNat 2 10 _ _ (by decide) (by decide) fdivNat_2_10]
  congr 1
  norm_num


theorem Search_of_bucketAt (hash : Int → Nat → Int) (t : HashTable) (key : Int)
    (bucket : Bucket) (hb : bucketAt t.buckets_ (hash key t.buckets_.length) = some bucket) :
    Search hash t key = some (searchBucket key bucket) := by
  unfold Search HashTable.hash
  simp only [hb]
  cases bucket with
  | nil => rfl
  | cons pair rest => rfl

theorem Search_eq_some_iff (hash : Int → Nat → Int) (t : HashTable) (key : Int)
    (result : Option String) :
    Search hash t key = some result ↔
      ∃ bucket, bucketAt t.buckets_ (hash key t.buckets_.length) = some bucket ∧
        searchBucket key bucket = result := by
  constructor
  · intro h
    cases hb : bucketAt t.buckets_ (hash key t.buckets_.length) with
    | none => simp [Search, HashTable.hash, hb] at h
    | some bucket =>
      rw [Search_of_bucketAt hash t key bucket hb] at h
      exact ⟨bucket, rfl, Option.some.inj h⟩
  · rintro ⟨bucket, hb, hs⟩
    rw [Search_of_bucketAt hash t key bucket hb, hs]

/-- C9: `Search` is its reference definition: the value of the first pair with the key in
the bucket at index `hash(key, capacity)`; it is absent exactly when that bucket has no
pair with the key; and `ContainsKey` is true exactly when `Search` returns a value. -/
theorem Search_eq_Search_spec (hash : Int → Nat → Int) (t : HashTable) (key : Int) :
    Search hash t key = Search_spec hash t key ∧
    (∀ bucket, bucketAt t.buckets_ (hash key t.capacity) = some bucket →
      (Search hash t key = some none ↔ ∀ pair ∈ bucket, pair.1 ≠ key)) ∧
    (ContainsKey hash t key = some true ↔ ∃ value, Search hash t key = some (some value)) ∧
    (ContainsKey hash t key = some false ↔ Search hash t key = some none) := by
  refine ⟨?_, ?_, ?_, ?_⟩
  · unfold Search_spec HashTable.capacity
    cases hb : bucketAt t.buckets_ (hash key t.buckets_.length) with
    | none => simp [Search, HashTable.hash, hb]
    | some bucket =>
      rw [Search_of_bucketAt hash t key bucket hb, searchBucket_eq_find]
      rfl
  · intro bucket hb
    rw [Search_of_bucketAt hash t key bucket hb, Option.some.injEq,
      searchBucket_eq_none_iff]
  · unfold ContainsKey
    cases h : Search hash t key with
    | none => simp
    | some result => cases result <;> simp
  · unfold ContainsKey
    cases h : Search hash t key with
    | none => simp
    | some result => cases result <;> simp

/-- C6: `Remove` of a key for which `Search` is absent returns absent and leaves the table
as it was: same size, same capacity, same buckets. -/
theorem Remove_absent (hash : Int → Nat → Int) (t : HashTable) (key : Int)
    (habsent : Search hash t key = some none) :
    ∃ t1, Remove hash t key = some (none, t1) ∧
      t1.size = t.size ∧ t1.capacity = t.capacity ∧ t1.buckets_ = t.buckets_ ∧ t1 = t := by
  obtain ⟨bucket, hb, hs⟩ := (Search_eq_some_iff hash t key none).mp habsent
  have hf : findPair key bucket = none := (findPair_eq_none_iff key bucket).mpr hs
  refine ⟨t, ?_, rfl, rfl, rfl, rfl⟩
  unfold Remove HashTable.hash
  simp only [hb, hf]
  cases bucket <;> rfl

theorem Remove_absent_witness :
    Search modHash ⟨Double.finite 1, 2, [[], [(1, "a"), (5, "b")], [], []]⟩ 9 = some none ∧
    ∃ t1, Remove modHash ⟨Double.finite 1, 2, [[], [(1, "a"), (5, "b")], [], []]⟩ 9 = some (none, t1) ∧
      t1.size = HashTable.size ⟨Double.finite 1, 2, [[], [(1, "a"), (5, "b")], [], []]⟩ ∧
      t1.capacity = HashTable.capacity ⟨Double.finite 1, 2, [[], [(1, "a"), (5, "b")], [], []]⟩ ∧
      t1.buckets_ = [[], [(1, "a"), (5, "b")], [], []] ∧
      t1 = ⟨Double.finite 1, 2, [[], [(1, "a"), (5, "b")], [], []]⟩ :=
  ⟨by decide, Remove_absent modHash ⟨Double.finite 1, 2, [[], [(1, "a"), (5, "b")], [], []]⟩ 9 (by decide)⟩


theorem bucketAt_mem (buckets : List Bucket) (index : Int) (bucket : Bucket)
    (h : bucketAt buckets index = some bucket) : bucket ∈ buckets :=
  List.mem_iff_getElem?.mpr ⟨_, ((bucketAt_eq_some_iff _ _ _).mp h).2⟩

theorem putBucket_keys (key : Int) (value : String) (bucket : Bucket) :
    (putBucket key value bucket).1.map Prod.fst = bucket.map Prod.fst := by
  induction bucket with
  | nil => rfl
  | cons pair rest ih =>
    by_cases h : pair.1 = key
    · simp [putBucket, h]
    · simp [putBucket, h, ih]

theorem putBucket_flag_false (key : Int) (value : String) (bucket : Bucket)
    (h : (putBucket key value bucket).2 = false) : key ∉ bucket.map Prod.fst := by
  induction bucket with
  | nil => simp
  | cons pair rest ih =>
    by_cases hk : pair.1 = key
    · simp [putBucket, hk] at h
    · simp only [putBucket, hk, if_false] at h
      have := ih h
      simp only [List.map_cons, List.mem_cons, not_or]
      exact ⟨fun e => hk e.symm, this⟩

theorem putInBucket_eq (key : Int) (value : String) (bucket : Bucket) :
    putInBucket key value bucket =
      if (putBucket key value bucket).2 then (putBucket key value bucket).1
      else (putBucket key value bucket).1 ++ [(key, value)] := by
  cases bucket with
  | nil => rfl
  | cons pair rest =>
    simp only [putInBucket, List.isEmpty_cons, Bool.not_false, if_true]
    cases (putBucket key value (pair :: rest)).2 <;> rfl

theorem putInBucket_nodup (key : Int) (value : String) (bucket : Bucket)
    (h : (bucket.map Prod.fst).Nodup) :
    ((putInBucket key value bucket).map Prod.fst).Nodup := by
  rw [putInBucket_eq]
  cases hflag : (putBucket key value bucket).2 with
  | true => simpa [putBucket_keys] using h
  | false =>
    have hnot := putBucket_flag_false key value _ hflag
    simp only [Bool.false_eq_true, if_false, List.map_append, putBucket_keys]
    rw [List.nodup_append]
    refine ⟨h, by simp, ?_⟩
    intro a ha hb
    simp only [List.map_cons, List.map_nil, List.mem_singleton] at hb
    subst hb
    exact hnot ha

theorem KeysNodup_set (buckets : List Bucket) (i : Nat) (bucket : Bucket)
    (h : KeysNodup buckets) (hb : (bucket.map Prod.fst).Nodup) :
    KeysNodup (buckets.set i bucket) := by
  intro b hmem
  rcases List.mem_or_eq_of_mem_set hmem with h1 | h1
  · exact h b h1
  · rw [h1]; exact hb

theorem redistribute_mem (hash : Int → Nat → Int) (old newBuckets result : List Bucket)
    (h : redistribute hash old newBuckets = some result) :
    ∀ bucket ∈ result, bucket ∈ newBuckets ∨ bucket ∈ old := by
  induction old generalizing newBuckets with
  | nil =>
    simp only [redistribute, Option.some.injEq] at h
    subst h
    exact fun b hb => Or.inl hb
  | cons list rest ih =>
    cases list with
    | nil =>
      simp only [redistribute, List.isEmpty_nil, Bool.not_true] at h
      intro b hb
      rcases ih newBuckets h b hb with h1 | h1
      · exact Or.inl h1
      · exact Or.inr (List.mem_cons_of_mem _ h1)
    | cons front tail =>
      simp only [redistribute, List.isEmpty_cons, Bool.not_false, if_true, List.head?_cons] at h
      split at h
      · intro b hb
        rcases ih _ h b hb with h1 | h1
        · rcases List.mem_or_eq_of_mem_set h1 with h2 | h2
          · exact Or.inl h2
          · exact Or.inr (h2 ▸ List.mem_cons_self _ _)
        · exact Or.inr (List.mem_cons_of_mem _ h1)
      · exact absurd h (by simp)

/-- The shape of a successful `Put`. -/
theorem Put_eq_some (hash : Int → Nat → Int) (t t1 : HashTable) (key : Int) (value : String)
    (hput : Put hash t key value = some t1) :
    ∃ bucket, bucketAt t.buckets_ (hash key t.buckets_.length) = some bucket ∧
      t1.load_factor_ = t.load_factor_ ∧ t1.num_keys_ = wrapInt32 (t.num_keys_ + 1) ∧
      ((Double.le t.load_factor_
            (fdiv (wrapInt32 (t.num_keys_ + 1)) t.buckets_.length) = true ∧
          resize hash (t.buckets_.set (hash key t.buckets_.length).toNat
            (putInBucket key value bucket)) = some t1.buckets_) ∨
        (¬ (Double.le t.load_factor_
            (fdiv (wrapInt32 (t.num_keys_ + 1)) t.buckets_.length) = true) ∧
          t1.buckets_ = t.buckets_.set (hash key t.buckets_.length).toNat
            (putInBucket key value bucket))) := by
  unfold Put HashTable.hash at hput
  cases hb : bucketAt t.buckets_ (hash key t.buckets_.length) with
  | none => simp [hb] at hput
  | some bucket =>
    simp only [hb, List.length_set] at hput
    refine ⟨bucket, rfl, ?_⟩
    by_cases hg : Double.le t.load_factor_
        (fdiv (wrapInt32 (t.num_keys_ + 1)) t.buckets_.length) = true
    · simp only [hg, if_true] at hput
      cases hr : resize hash (t.buckets_.set (hash key t.buckets_.length).toNat
            (putInBucket key value bucket)) with
      | none => simp [hr] at hput
      | some newBuckets =>
        simp only [hr, Option.some.injEq] at hput
        subst hput
        exact ⟨rfl, rfl, Or.inl ⟨hg, rfl⟩⟩
    · simp only [hg, Bool.false_eq_true, if_false, Option.some.injEq] at hput
      subst hput
      exact ⟨rfl, rfl, Or.inr ⟨hg, rfl⟩⟩

theorem KeysNodup_Put (hash : Int → Nat → Int) (t t1 : HashTable) (key : Int) (value : String)
    (h : KeysNodup t.buckets_) (hput : Put hash t key value = some t1) :
    KeysNodup t1.buckets_ := by
  obtain ⟨bucket, hb, -, -, hcase⟩ := Put_eq_some hash t t1 key value hput
  have hset := KeysNodup_set t.buckets_ (hash key t.buckets_.length).toNat _ h
    (putInBucket_nodup key value bucket (h bucket (bucketAt_mem _ _ _ hb)))
  rcases hcase with ⟨-, hr⟩ | ⟨-, hr⟩
  · intro b hbm
    rcases redistribute_mem hash _ _ _ hr b hbm with h1 | h1
    · rw [List.eq_of_mem_replicate h1]; simp
    · exact hset b h1
  · rw [hr]; exact hset

theorem KeysNodup_listRemove (bucket : Bucket) (pair : Int × String)
    (h : (bucket.map Prod.fst).Nodup) : ((listRemove bucket pair).map Prod.fst).Nodup :=
  List.Nodup.sublist (List.Sublist.map _ (List.filter_sublist _)) h

/-- The shape of a successful `Remove`. -/
theorem Remove_eq_some (hash : Int → Nat → Int) (t t1 : HashTable) (key : Int)
    (result : Option String) (hrem : Remove hash t key = some (result, t1)) :
    ∃ bucket, bucketAt t.buckets_ (hash key t.buckets_.length) = some bucket ∧
      ((∃ removingPair, findPair key bucket = some removingPair ∧
          result = some removingPair.2 ∧
          t1 = HashTable.mk t.load_factor_ t.num_keys_
            (t.buckets_.set (hash key t.buckets_.length).toNat
              (listRemove bucket removingPair))) ∨
        (findPair key bucket = none ∧ result = none ∧ t1 = t)) := by
  unfold Remove HashTable.hash at hrem
  cases hb : bucketAt t.buckets_ (hash key t.buckets_.length) with
  | none => simp [hb] at hrem
  | some bucket =>
    simp only [hb] at hrem
    refine ⟨bucket, rfl, ?_⟩
    cases bucket with
    | nil =>
      simp only [List.isEmpty_nil, Bool.not_true, Bool.false_eq_true, if_false,
        Option.some.injEq, Prod.mk.injEq] at hrem
      exact Or.inr ⟨rfl, hrem.1.symm, hrem.2.symm⟩
    | cons pair rest =>
      simp only [List.isEmpty_cons, Bool.not_false, if_true] at hrem
      cases hf : findPair key (pair :: rest) with
      | none =>
        simp only [hf, Option.some.injEq, Prod.mk.injEq] at hrem
        exact Or.inr ⟨rfl, hrem.1.symm, hrem.2.symm⟩
      | some removingPair =>
        simp only [hf, Option.some.injEq, Prod.mk.injEq] at hrem
        exact Or.inl ⟨removingPair, rfl, hrem.1.symm, hrem.2.symm⟩

theorem KeysNodup_Remove (hash : Int → Nat → Int) (t t1 : HashTable) (key : Int)
    (result : Option String)
    (h : KeysNodup t.buckets_) (hrem : Remove hash t key = some (result, t1)) :
    KeysNodup t1.buckets_ := by
  obtain ⟨bucket, hb, hcase⟩ := Remove_eq_some hash t t1 key result hrem
  rcases hcase with ⟨removingPair, -, -, ht⟩ | ⟨-, -, ht⟩
  · rw [ht]
    exact KeysNodup_set _ _ _ h (KeysNodup_listRemove _ _ (h bucket (bucketAt_mem _ _ _ hb)))
  · rw [ht]; exact h

theorem KeysNodup_Construct (capacity : Int) (load_factor : Double) (t : HashTable)
    (h : Construct capacity load_factor = some t) : KeysNodup t.buckets_ := by
  unfold Construct at h
  split at h
  · exact absurd h (by simp)
  · split at h
    · exact absurd h (by simp)
    · simp only [Option.some.injEq] at h
      subst h
      intro b hb
      rw [List.eq_of_mem_replicate hb]; simp

theorem KeysNodup_runOps (hash : Int → Nat → Int) (ops : List Op) (t t1 : HashTable)
    (h : KeysNodup t.buckets_) (hrun : runOps hash t ops = some t1) :
    KeysNodup t1.buckets_ := by
  induction ops generalizing t with
  | nil =>
    simp only [runOps, Option.some.injEq] at hrun
    subst hrun; exact h
  | cons op rest ih =>
    simp only [runOps] at hrun
    cases hop : applyOp hash t op with
    | none => simp [hop] at hrun
    | some t2 =>
      simp only [hop] at hrun
      refine ih t2 ?_ hrun
      cases op with
      | put key value => exact KeysNodup_Put hash t t2 key value h hop
      | remove key =>
        simp only [applyOp, Option.map_eq_some'] at hop
        obtain ⟨⟨result, t3⟩, hr, heq⟩ := hop
        simp only at heq
        subst heq
        exact KeysNodup_Remove hash t t3 key result h hr

theorem KeysNodup_of_Reachable (hash : Int → Nat → Int) (t : HashTable)
    (h : Reachable hash t) : KeysNodup t.buckets_ := by
  obtain ⟨capacity, load_factor, t0, ops, hc, hrun⟩ := h
  exact KeysNodup_runOps hash ops t0 t (KeysNodup_Construct _ _ _ hc) hrun


theorem bucketAt_set (buckets : List Bucket) (index : Int) (old new : Bucket)
    (h : bucketAt buckets index = some old) :
    bucketAt (buckets.set index.toNat new) index = some new := by
  obtain ⟨h0, h1⟩ := (bucketAt_eq_some_iff _ _ _).mp h
  have hlt : index.toNat < buckets.length := by
    obtain ⟨hlt, -⟩ := List.getElem?_eq_some.mp h1
    exact hlt
  rw [bucketAt_eq_some_iff]
  exact ⟨h0, by simp [List.getElem?_set_self, hlt]⟩

theorem searchBucket_listRemove (key : Int) (value : String) (bucket : Bucket)
    (hnd : (bucket.map Prod.fst).Nodup) (hmem : (key, value) ∈ bucket) :
    searchBucket key (listRemove bucket (key, value)) = none := by
  rw [searchBucket_eq_none_iff]
  intro pair hp hk
  unfold listRemove at hp
  rw [List.mem_filter] at hp
  have heq : pair = (key, value) :=
    List.inj_on_of_nodup_map hnd hp.1 hmem hk
  simp [heq] at hp

/-- C3: in a reachable table, when `Search(key)` returns a value, `Remove(key)` returns that
value and `Search(key)` is absent in the table after the removal. -/
theorem Remove_present (hash : Int → Nat → Int) (t : HashTable) (key : Int) (value : String)
    (hreach : Reachable hash t) (hfound : Search hash t key = some (some value)) :
    ∃ t1, Remove hash t key = some (some value, t1) ∧ Search hash t1 key = some none := by
  obtain ⟨bucket, hb, hs⟩ := (Search_eq_some_iff hash t key (some value)).mp hfound
  obtain ⟨hf, hmem⟩ := findPair_of_searchBucket key value bucket hs
  have hnd := KeysNodup_of_Reachable hash t hreach bucket (bucketAt_mem _ _ _ hb)
  refine ⟨HashTable.mk t.load_factor_ t.num_keys_
    (t.buckets_.set (hash key t.buckets_.length).toNat (listRemove bucket (key, value))), ?_, ?_⟩
  · unfold Remove HashTable.hash
    simp only [hb, hf]
    cases bucket with
    | nil => simp at hmem
    | cons pair rest => rfl
  · rw [Search_eq_some_iff]
    refine ⟨listRemove bucket (key, value), ?_, searchBucket_listRemove key value bucket hnd hmem⟩
    simp only [List.length_set]
    exact bucketAt_set _ _ _ _ hb

/-- The table after `Put(1, "a")` and `Put(5, "b")` on a new table of capacity 4 with load
factor 1. -/
theorem Reachable_example :
    Reachable modHash ⟨Double.finite 1, 2, [[], [(1, "a"), (5, "b")], [], []]⟩ := by
  refine ⟨4, Double.finite 1, ⟨Double.finite 1, 0, [[], [], [], []]⟩, [Op.put 1 "a", Op.put 5 "b"], by decide, ?_⟩
  have h1 : Put modHash ⟨Double.finite 1, 0, [[], [], [], []]⟩ 1 "a" = some ⟨Double.finite 1, 1, [[], [(1, "a")], [], []]⟩ := by
    simp [Put, HashTable.hash, modHash, utils.hash, wordHash, bucketAt, putInBucket, putBucket]
    norm_num
  have h2 : Put modHash ⟨Double.finite 1, 1, [[], [(1, "a")], [], []]⟩ 5 "b"
      = some ⟨Double.finite 1, 2, [[], [(1, "a"), (5, "b")], [], []]⟩ := by
    simp [Put, HashTable.hash, modHash, utils.hash, wordHash, bucketAt, putInBucket, putBucket]
    norm_num
  simp only [runOps, applyOp, h1, h2]

theorem Remove_present_witness :
    Reachable modHash ⟨Double.finite 1, 2, [[], [(1, "a"), (5, "b")], [], []]⟩ ∧
    Search modHash ⟨Double.finite 1, 2, [[], [(1, "a"), (5, "b")], [], []]⟩ 5 = some (some "b") ∧
    ∃ t1, Remove modHash ⟨Double.finite 1, 2, [[], [(1, "a"), (5, "b")], [], []]⟩ 5 = some (some "b", t1) ∧
      Search modHash t1 5 = some none :=
  ⟨Reachable_example, by decide,
    Remove_present modHash ⟨Double.finite 1, 2, [[], [(1, "a"), (5, "b")], [], []]⟩ 5 "b"
      Reachable_example (by decide)⟩


/-- C1: the claim is that `Search(k)` returns `v` right after `Put(k, v)`.  On a new table of
capacity 2 with load factor 1, `Put(0, "a")` and then `Put(2, "b")`: the second call
resizes to capacity 4 and leaves the whole old bucket at index 0, so `Search(2)`, which
looks at index 2, is absent and `ContainsKey(2)` is false. -/
theorem Put_resize_loses_key :
    Construct 2 (Double.finite 1) = some ⟨Double.finite 1, 0, [[], []]⟩ ∧
    Put modHash ⟨Double.finite 1, 0, [[], []]⟩ 0 "a" = some ⟨Double.finite 1, 1, [[(0, "a")], []]⟩ ∧
    Put modHash ⟨Double.finite 1, 1, [[(0, "a")], []]⟩ 2 "b"
      = some ⟨Double.finite 1, 2, [[(0, "a"), (2, "b")], [], [], []]⟩ ∧
    Search modHash ⟨Double.finite 1, 2, [[(0, "a"), (2, "b")], [], [], []]⟩ 2 = some none ∧
    ContainsKey modHash ⟨Double.finite 1, 2, [[(0, "a"), (2, "b")], [], [], []]⟩ 2 = some false := by
  refine ⟨by decide, ?_, ?_, by decide, by decide⟩
  · simp [Put, HashTable.hash, modHash, utils.hash, wordHash, bucketAt, putInBucket, putBucket]
    norm_num
  · simp [Put, HashTable.hash, modHash, utils.hash, wordHash, bucketAt, putInBucket, putBucket,
      resize, redistribute, kGrowthCoefficient, List.replicate]

/-- C2: the claim is that all of N distinct keys put into a new table are found with their
values.  On a new table of capacity 4 with load factor 3/4, putting the distinct keys 0, 4
and 8 resizes at the third call and leaves all three pairs at index 0 of 8 buckets, so
`Search(4)` is absent. -/
theorem Put_distinct_keys_loses_key :
    Construct 4 (Double.finite (3 / 4)) = some ⟨Double.finite (3 / 4), 0, [[], [], [], []]⟩ ∧
    runOps modHash ⟨Double.finite (3 / 4), 0, [[], [], [], []]⟩
        [Op.put 0 "a", Op.put 4 "b", Op.put 8 "c"]
      = some ⟨Double.finite (3 / 4), 3, [[(0, "a"), (4, "b"), (8, "c")], [], [], [], [], [], [], []]⟩ ∧
    Search modHash ⟨Double.finite (3 / 4), 3, [[(0, "a"), (4, "b"), (8, "c")], [], [], [], [], [], [], []]⟩ 4
      = some none := by
  refine ⟨?_, ?_, by decide⟩
  · simp [Construct, num_keys_init, List.replicate]
    norm_num
  · have h1 : Put modHash ⟨Double.finite (3 / 4), 0, [[], [], [], []]⟩ 0 "a"
        = some ⟨Double.finite (3 / 4), 1, [[(0, "a")], [], [], []]⟩ := by
      simp [Put, HashTable.hash, modHash, utils.hash, wordHash, bucketAt, putInBucket, putBucket]
      norm_num
    have h2 : Put modHash ⟨Double.finite (3 / 4), 1, [[(0, "a")], [], [], []]⟩ 4 "b"
        = some ⟨Double.finite (3 / 4), 2, [[(0, "a"), (4, "b")], [], [], []]⟩ := by
      simp [Put, HashTable.hash, modHash, utils.hash, wordHash, bucketAt, putInBucket, putBucket]
      norm_num
    have h3 : Put modHash ⟨Double.finite (3 / 4), 2, [[(0, "a"), (4, "b")], [], [], []]⟩ 8 "c"
        = some ⟨Double.finite (3 / 4), 3, [[(0, "a"), (4, "b"), (8, "c")], [], [], [], [], [], [], []]⟩ := by
      simp [Put, HashTable.hash, modHash, utils.hash, wordHash, bucketAt, putInBucket, putBucket,
        resize, redistribute, kGrowthCoefficient, List.replicate]
    simp only [runOps, applyOp, h1, h2, h3]

/-- C4: the claim is that `Remove` of a present key decrements `size()`.  On the table of
the spec example (capacity 4, load factor 1, `Put(1, "a")`, `Put(5, "b")`), `Remove(1)`
returns `"a"` and `size()` is still 2. -/
theorem Remove_keeps_size :
    Construct 4 (Double.finite 1) = some ⟨Double.finite 1, 0, [[], [], [], []]⟩ ∧
    runOps modHash ⟨Double.finite 1, 0, [[], [], [], []]⟩ [Op.put 1 "a", Op.put 5 "b"]
      = some ⟨Double.finite 1, 2, [[], [(1, "a"), (5, "b")], [], []]⟩ ∧
    Search modHash ⟨Double.finite 1, 2, [[], [(1, "a"), (5, "b")], [], []]⟩ 1 = some (some "a") ∧
    Remove modHash ⟨Double.finite 1, 2, [[], [(1, "a"), (5, "b")], [], []]⟩ 1
      = some (some "a", ⟨Double.finite 1, 2, [[], [(5, "b")], [], []]⟩) ∧
    HashTable.size ⟨Double.finite 1, 2, [[], [(5, "b")], [], []]⟩ = 2 := by
  refine ⟨by decide, ?_, by decide, by decide, by decide⟩
  have h1 : Put modHash ⟨Double.finite 1, 0, [[], [], [], []]⟩ 1 "a" = some ⟨Double.finite 1, 1, [[], [(1, "a")], [], []]⟩ := by
    simp [Put, HashTable.hash, modHash, utils.hash, wordHash, bucketAt, putInBucket, putBucket]
    norm_num
  have h2 : Put modHash ⟨Double.finite 1, 1, [[], [(1, "a")], [], []]⟩ 5 "b"
      = some ⟨Double.finite 1, 2, [[], [(1, "a"), (5, "b")], [], []]⟩ := by
    simp [Put, HashTable.hash, modHash, utils.hash, wordHash, bucketAt, putInBucket, putBucket]
    norm_num
  simp only [runOps, applyOp, h1, h2]

/-- C5: the claim is that a second `Put` on the same key leaves `size()` as it was.  On a new
table of capacity 4 with load factor 1, `size()` is 1 after `Put(1, "a")` and 2 after
`Put(1, "b")`, with one pair stored. -/
theorem Put_overwrite_grows_size :
    Construct 4 (Double.finite 1) = some ⟨Double.finite 1, 0, [[], [], [], []]⟩ ∧
    Put modHash ⟨Double.finite 1, 0, [[], [], [], []]⟩ 1 "a" = some ⟨Double.finite 1, 1, [[], [(1, "a")], [], []]⟩ ∧
    Put modHash ⟨Double.finite 1, 1, [[], [(1, "a")], [], []]⟩ 1 "b" = some ⟨Double.finite 1, 2, [[], [(1, "b")], [], []]⟩ ∧
    HashTable.size ⟨Double.finite 1, 1, [[], [(1, "a")], [], []]⟩ = 1 ∧
    HashTable.size ⟨Double.finite 1, 2, [[], [(1, "b")], [], []]⟩ = 2 := by
  refine ⟨by decide, ?_, ?_, by decide, by decide⟩
  · simp [Put, HashTable.hash, modHash, utils.hash, wordHash, bucketAt, putInBucket, putBucket]
    norm_num
  · simp [Put, HashTable.hash, modHash, utils.hash, wordHash, bucketAt, putInBucket, putBucket]
    norm_num

/-- C10: the claim is that `keys()` holds exactly the keys put and not removed afterwards.
On a new table of capacity 2 with load factor 1, after `Put(0, "a")`, `Put(2, "b")` (which
resizes) and `Remove(2)` (which looks at index 2 and finds nothing), `keys()` still holds 2. -/
theorem keys_keeps_removed_key :
    Construct 2 (Double.finite 1) = some ⟨Double.finite 1, 0, [[], []]⟩ ∧
    runOps modHash ⟨Double.finite 1, 0, [[], []]⟩ [Op.put 0 "a", Op.put 2 "b", Op.remove 2]
      = some ⟨Double.finite 1, 2, [[(0, "a"), (2, "b")], [], [], []]⟩ ∧
    keys ⟨Double.finite 1, 2, [[(0, "a"), (2, "b")], [], [], []]⟩ = {0, 2} ∧
    insertedNotRemoved 2 [Op.put 0 "a", Op.put 2 "b", Op.remove 2] = false := by
  refine ⟨by decide, ?_, by decide, by decide⟩
  have h1 : Put modHash ⟨Double.finite 1, 0, [[], []]⟩ 0 "a" = some ⟨Double.finite 1, 1, [[(0, "a")], []]⟩ := by
    simp [Put, HashTable.hash, modHash, utils.hash, wordHash, bucketAt, putInBucket, putBucket]
    norm_num
  have h2 : Put modHash ⟨Double.finite 1, 1, [[(0, "a")], []]⟩ 2 "b"
      = some ⟨Double.finite 1, 2, [[(0, "a"), (2, "b")], [], [], []]⟩ := by
    simp [Put, HashTable.hash, modHash, utils.hash, wordHash, bucketAt, putInBucket, putBucket,
      resize, redistribute, kGrowthCoefficient, List.replicate]
  have h3 : Remove modHash ⟨Double.finite 1, 2, [[(0, "a"), (2, "b")], [], [], []]⟩ 2
      = some (none, ⟨Double.finite 1, 2, [[(0, "a"), (2, "b")], [], [], []]⟩) := by decide
  simp only [runOps, applyOp, h1, h2, h3, Option.map_some']


theorem redistribute_length (hash : Int → Nat → Int) (old newBuckets result : List Bucket)
    (h : redistribute hash old newBuckets = some result) :
    result.length = newBuckets.length := by
  induction old generalizing newBuckets with
  | nil =>
    simp only [redistribute, Option.some.injEq] at h
    rw [h]
  | cons list rest ih =>
    cases list with
    | nil =>
      simp only [redistribute, List.isEmpty_nil, Bool.not_true] at h
      exact ih newBuckets h
    | cons front tail =>
      simp only [redistribute, List.isEmpty_cons, Bool.not_false, if_true, List.head?_cons] at h
      split at h
      · rw [ih _ h, List.length_set]
      · exact absurd h (by simp)

theorem redistribute_isSome (hash : Int → Nat → Int)
    (hrange : ∀ (key : Int) (n : Nat), 0 < n → 0 ≤ hash key n ∧ hash key n < n)
    (old newBuckets : List Bucket) (hpos : 0 < newBuckets.length) :
    ∃ result, redistribute hash old newBuckets = some result := by
  induction old generalizing newBuckets with
  | nil => exact ⟨newBuckets, rfl⟩
  | cons list rest ih =>
    cases list with
    | nil =>
      simp only [redistribute, List.isEmpty_nil, Bool.not_true]
      exact ih newBuckets hpos
    | cons front tail =>
      simp only [redistribute, List.isEmpty_cons, Bool.not_false, if_true, List.head?_cons]
      have hr := hrange front.1 newBuckets.length hpos
      have hlt : (hash front.1 newBuckets.length).toNat < newBuckets.length := by omega
      simp only [hr.1, hlt, and_self, if_true]
      exact ih _ (by rw [List.length_set]; exact hpos)

theorem resize_length (hash : Int → Nat → Int) (buckets result : List Bucket)
    (h : resize hash buckets = some result) :
    result.length = buckets.length * kGrowthCoefficient := by
  unfold resize at h
  rw [redistribute_length hash _ _ _ h, List.length_replicate]

theorem Put_isSome (hash : Int → Nat → Int)
    (hrange : ∀ (key : Int) (n : Nat), 0 < n → 0 ≤ hash key n ∧ hash key n < n)
    (t : HashTable) (key : Int) (value : String) (hcap : 0 < t.buckets_.length) :
    ∃ t1, Put hash t key value = some t1 := by
  have hr := hrange key t.buckets_.length hcap
  obtain ⟨bucket, hb, -⟩ := bucketAt_isSome_of_range t.buckets_ _ hr.1 hr.2
  unfold Put HashTable.hash
  simp only [hb, List.length_set]
  by_cases hg : Double.le t.load_factor_
      (fdiv (wrapInt32 (t.num_keys_ + 1)) t.buckets_.length) = true
  · simp only [hg, if_true]
    obtain ⟨result, hres⟩ := redistribute_isSome hash hrange
      (t.buckets_.set (hash key t.buckets_.length).toNat (putInBucket key value bucket))
      (List.replicate ((t.buckets_.set (hash key t.buckets_.length).toNat
        (putInBucket key value bucket)).length * kGrowthCoefficient) [])
      (by
        rw [List.length_replicate, List.length_set]
        exact Nat.mul_pos hcap (by decide))
    unfold resize
    rw [hres]
    exact ⟨_, rfl⟩
  · simp only [hg, Bool.false_eq_true, if_false]
    exact ⟨_, rfl⟩

theorem Put_capacity (hash : Int → Nat → Int) (t t1 : HashTable) (key : Int) (value : String)
    (hput : Put hash t key value = some t1) :
    (growthTest t t1 → t1.capacity = t.capacity * kGrowthCoefficient) ∧
    (¬ growthTest t t1 → t1.capacity = t.capacity) := by
  obtain ⟨bucket, -, hlf, hnum, hcase⟩ := Put_eq_some hash t t1 key value hput
  have htest : growthTest t t1 ↔
      Double.le t.load_factor_
        (fdiv (wrapInt32 (t.num_keys_ + 1)) t.buckets_.length) = true := by
    unfold growthTest HashTable.size HashTable.capacity HashTable.load_factor
    rw [hnum]
  unfold HashTable.capacity
  rcases hcase with ⟨hg, hr⟩ | ⟨hg, hr⟩
  · refine ⟨fun _ => ?_, fun hn => absurd (htest.mpr hg) hn⟩
    rw [resize_length hash _ _ hr, List.length_set]
  · refine ⟨fun hy => absurd (htest.mp hy) hg, fun _ => ?_⟩
    rw [hr, List.length_set]

theorem Remove_capacity (hash : Int → Nat → Int) (t t1 : HashTable) (key : Int)
    (result : Option String) (hrem : Remove hash t key = some (result, t1)) :
    t1.buckets_.length = t.buckets_.length ∧ t1.num_keys_ = t.num_keys_ ∧
    t1.load_factor_ = t.load_factor_ := by
  obtain ⟨bucket, -, hcase⟩ := Remove_eq_some hash t t1 key result hrem
  rcases hcase with ⟨removingPair, -, -, ht⟩ | ⟨-, -, ht⟩
  · rw [ht]
    exact ⟨List.length_set _ _ _, rfl, rfl⟩
  · rw [ht]
    exact ⟨rfl, rfl, rfl⟩

theorem applyOp_remove (hash : Int → Nat → Int) (t t1 : HashTable) (key : Int)
    (h : applyOp hash t (Op.remove key) = some t1) :
    ∃ result, Remove hash t key = some (result, t1) := by
  simp only [applyOp, Option.map_eq_some'] at h
  obtain ⟨⟨result, t2⟩, hr, heq⟩ := h
  simp only at heq
  subst heq
  exact ⟨result, hr⟩

theorem runOps_capacity (hash : Int → Nat → Int) (ops : List Op) (t t1 : HashTable)
    (hrun : runOps hash t ops = some t1) :
    t1.capacity = t.capacity * kGrowthCoefficient ^ growths hash t ops := by
  induction ops generalizing t with
  | nil =>
    simp only [runOps, Option.some.injEq] at hrun
    subst hrun
    simp [growths]
  | cons op rest ih =>
    simp only [runOps] at hrun
    cases hop : applyOp hash t op with
    | none => simp [hop] at hrun
    | some t2 =>
      simp only [hop] at hrun
      have h2 := ih t2 hrun
      rw [h2]
      cases op with
      | put key value =>
        have hc := Put_capacity hash t t2 key value hop
        by_cases hg : growthTest t t2
        · simp only [growths, hop, hg, if_true]
          rw [hc.1 hg, pow_add, pow_one]
          ring
        · simp only [growths, hop, hg, if_false, Nat.zero_add]
          rw [hc.2 hg]
      | remove key =>
        obtain ⟨result, hr⟩ := applyOp_remove hash t t2 key hop
        have hc := (Remove_capacity hash t t2 key result hr).1
        simp only [growths, hop, Nat.zero_add]
        unfold HashTable.capacity
        rw [hc]

theorem Construct_eq_some (capacity : Int) (load_factor : Double) (t : HashTable)
    (h : Construct capacity load_factor = some t) :
    0 < capacity ∧ Double.le load_factor (Double.finite 0) = false ∧
    Double.lt (Double.finite 1) load_factor = false ∧
    t = HashTable.mk load_factor num_keys_init (List.replicate capacity.toNat []) := by
  unfold Construct at h
  split at h
  · exact absurd h (by simp)
  · split at h
    · exact absurd h (by simp)
    · rename_i hc hl
      simp only [Option.some.injEq] at h
      simp only [Bool.or_eq_true, not_or, Bool.not_eq_true] at hl
      push_neg at hc
      exact ⟨hc, hl.1, hl.2, h.symm⟩

/-- A load factor that passes the two tests of the constructor and is not NaN is a finite
value in `(0, 1]`. -/
theorem Double_unit_interval (x : Double) (hne : x ≠ Double.nan)
    (h0 : Double.le x (Double.finite 0) = false)
    (h1 : Double.lt (Double.finite 1) x = false) :
    ∃ q : ℚ, x = Double.finite q ∧ 0 < q ∧ q ≤ 1 := by
  cases x with
  | nan => exact absurd rfl hne
  | negInf => simp [Double.le] at h0
  | posInf => simp [Double.lt] at h1
  | finite q =>
    simp only [Double_le_finite, decide_eq_false_iff_not, not_le] at h0
    simp only [Double_lt_finite, decide_eq_false_iff_not, not_lt] at h1
    exact ⟨q, rfl, h0, h1⟩

/-- One call keeps the load factor and a positive bucket count, keeps `num_keys_` in the
range of a 32-bit `int`, and adds one to `num_keys_`, with wrap-around, exactly when it is
a `Put`. -/
theorem applyOp_fields (hash : Int → Nat → Int) (t t1 : HashTable) (op : Op)
    (h : applyOp hash t op = some t1) :
    t1.load_factor_ = t.load_factor_ ∧
    (0 < t.buckets_.length → 0 < t1.buckets_.length) ∧
    (-2147483648 ≤ t.num_keys_ ∧ t.num_keys_ < 2147483648 →
      (-2147483648 ≤ t1.num_keys_ ∧ t1.num_keys_ < 2147483648) ∧
      t1.num_keys_ = wrapInt32 (t.num_keys_ + countPuts [op])) := by
  cases op with
  | put key value =>
    obtain ⟨bucket, -, hlf, hnum, hcase⟩ := Put_eq_some hash t t1 key value h
    refine ⟨hlf, ?_, ?_⟩
    · intro hpos
      rcases hcase with ⟨-, hr⟩ | ⟨-, hr⟩
      · rw [resize_length hash _ _ hr, List.length_set]
        exact Nat.mul_pos hpos (by decide)
      · rw [hr, List.length_set]
        exact hpos
    · intro _
      rw [hnum]
      exact ⟨wrapInt32_range _, by simp [countPuts]⟩
  | remove key =>
    obtain ⟨result, hr⟩ := applyOp_remove hash t t1 key h
    obtain ⟨hlen, hnum, hlf⟩ := Remove_capacity hash t t1 key result hr
    refine ⟨hlf, fun hpos => hlen ▸ hpos, ?_⟩
    intro hrange
    rw [hnum]
    refine ⟨hrange, ?_⟩
    simp only [countPuts, Nat.cast_zero, add_zero]
    exact (wrapInt32_of_range _ hrange.1 hrange.2).symm

theorem countPuts_cons (op : Op) (rest : List Op) :
    countPuts (op :: rest) = countPuts [op] + countPuts rest := by
  cases op <;> simp [countPuts, Nat.add_comm]

theorem runOps_fields (hash : Int → Nat → Int) (ops : List Op) (t t1 : HashTable)
    (hrun : runOps hash t ops = some t1) :
    t1.load_factor_ = t.load_factor_ ∧
    (0 < t.buckets_.length → 0 < t1.buckets_.length) ∧
    (-2147483648 ≤ t.num_keys_ ∧ t.num_keys_ < 2147483648 →
      t1.num_keys_ = wrapInt32 (t.num_keys_ + countPuts ops)) := by
  induction ops generalizing t with
  | nil =>
    simp only [runOps, Option.some.injEq] at hrun
    subst hrun
    refine ⟨rfl, fun h => h, fun hrange => ?_⟩
    simp only [countPuts, Nat.cast_zero, add_zero]
    exact (wrapInt32_of_range _ hrange.1 hrange.2).symm
  | cons op rest ih =>
    simp only [runOps] at hrun
    cases hop : applyOp hash t op with
    | none => simp [hop] at hrun
    | some t2 =>
      simp only [hop] at hrun
      obtain ⟨h1, h2, h3⟩ := applyOp_fields hash t t2 op hop
      obtain ⟨g1, g2, g3⟩ := ih t2 hrun
      refine ⟨g1.trans h1, fun hpos => g2 (h2 hpos), fun hrange => ?_⟩
      obtain ⟨hr2, hn2⟩ := h3 hrange
      rw [g3 hr2, hn2, wrapInt32_add, countPuts_cons op rest]
      push_cast
      rw [add_assoc]

theorem runOps_append (hash : Int → Nat → Int) (ops1 ops2 : List Op) (t : HashTable) :
    runOps hash t (ops1 ++ ops2) = (runOps hash t ops1).bind (fun t1 => runOps hash t1 ops2) := by
  induction ops1 generalizing t with
  | nil => rfl
  | cons op rest ih =>
    simp only [List.cons_append, runOps]
    cases applyOp hash t op with
    | none => rfl
    | some t2 => exact ih t2

theorem Reachable_capacity_pos (hash : Int → Nat → Int) (t : HashTable)
    (h : Reachable hash t) : 0 < t.buckets_.length := by
  obtain ⟨capacity, load_factor, t0, ops, hc, hrun⟩ := h
  obtain ⟨hcap, -, -, ht0⟩ := Construct_eq_some capacity load_factor t0 hc
  refine (runOps_fields hash ops t0 t hrun).2.1 ?_
  rw [ht0]
  simp only [List.length_replicate]
  omega

/-- C16: the claim is that in every reachable table `capacity() > 0`,
`0 < load_factor() <= 1`, and `load_factor()` is the value given at construction.  The
first and the last hold for every run, and the second holds whenever the load factor given
is not NaN.  `HashTable(8, NaN)` is constructed, and after `Put(1, "a")` its
`load_factor()` is NaN, for which both `0 < load_factor()` and `load_factor() <= 1` are
false. -/
theorem load_factor_nan_reachable :
    Construct 8 Double.nan = some ⟨Double.nan, 0, [[], [], [], [], [], [], [], []]⟩ ∧
    runOps modHash ⟨Double.nan, 0, [[], [], [], [], [], [], [], []]⟩ [Op.put 1 "a"]
      = some ⟨Double.nan, 1, [[], [(1, "a")], [], [], [], [], [], []]⟩ ∧
    HashTable.load_factor ⟨Double.nan, 1, [[], [(1, "a")], [], [], [], [], [], []]⟩
      = Double.nan ∧
    Double.lt (Double.finite 0) Double.nan = false ∧
    Double.le Double.nan (Double.finite 1) = false ∧
    (∀ (hash : Int → Nat → Int) (capacity : Int) (load_factor : Double)
        (t0 t : HashTable) (ops : List Op),
      Construct capacity load_factor = some t0 → runOps hash t0 ops = some t →
      0 < t.capacity ∧ t.load_factor = load_factor ∧
      (load_factor ≠ Double.nan →
        ∃ q : ℚ, t.load_factor = Double.finite q ∧ 0 < q ∧ q ≤ 1)) := by
  refine ⟨by decide, ?_, rfl, rfl, rfl, ?_⟩
  · have h1 : Put modHash ⟨Double.nan, 0, [[], [], [], [], [], [], [], []]⟩ 1 "a"
        = some ⟨Double.nan, 1, [[], [(1, "a")], [], [], [], [], [], []]⟩ := by
      simp [Put, HashTable.hash, modHash, utils.hash, wordHash, bucketAt, putInBucket,
        putBucket, Double.le]
    simp only [runOps, applyOp, h1]
  · intro hash capacity load_factor t0 t ops hc hrun
    obtain ⟨-, h0, h1, ht0⟩ := Construct_eq_some capacity load_factor t0 hc
    obtain ⟨hlf, -, -⟩ := runOps_fields hash ops t0 t hrun
    have heq : t.load_factor = load_factor := by
      unfold HashTable.load_factor
      rw [hlf, ht0]
    refine ⟨Reachable_capacity_pos hash t ⟨capacity, load_factor, t0, ops, hc, hrun⟩,
      heq, fun hne => ?_⟩
    rw [heq]
    exact Double_unit_interval load_factor hne h0 h1

/-- The run of `Put(0, "a")`, `Put(2, "b")`, `Remove(0)` on a new table of capacity 2 with
load factor 1; the second call resizes. -/
theorem runOps_example :
    runOps modHash ⟨Double.finite 1, 0, [[], []]⟩ [Op.put 0 "a", Op.put 2 "b", Op.remove 0]
      = some ⟨Double.finite 1, 2, [[(2, "b")], [], [], []]⟩ := by
  have h1 : Put modHash ⟨Double.finite 1, 0, [[], []]⟩ 0 "a" = some ⟨Double.finite 1, 1, [[(0, "a")], []]⟩ := by
    simp [Put, HashTable.hash, modHash, utils.hash, wordHash, bucketAt, putInBucket, putBucket]
    norm_num
  have h2 : Put modHash ⟨Double.finite 1, 1, [[(0, "a")], []]⟩ 2 "b"
      = some ⟨Double.finite 1, 2, [[(0, "a"), (2, "b")], [], [], []]⟩ := by
    simp [Put, HashTable.hash, modHash, utils.hash, wordHash, bucketAt, putInBucket, putBucket,
      resize, redistribute, kGrowthCoefficient, List.replicate]
  have h3 : Remove modHash ⟨Double.finite 1, 2, [[(0, "a"), (2, "b")], [], [], []]⟩ 0
      = some (some "a", ⟨Double.finite 1, 2, [[(2, "b")], [], [], []]⟩) := by decide
  simp only [runOps, applyOp, h1, h2, h3, Option.map_some']

/-- A run of calls returns on a table with at least one bucket when the hash is an index
in range. -/
theorem runOps_isSome (hash : Int → Nat → Int)
    (hrange : ∀ (key : Int) (n : Nat), 0 < n → 0 ≤ hash key n ∧ hash key n < n)
    (ops : List Op) (t : HashTable) (hcap : 0 < t.buckets_.length) :
    ∃ t1, runOps hash t ops = some t1 := by
  induction ops generalizing t with
  | nil => exact ⟨t, rfl⟩
  | cons op rest ih =>
    have hop : ∃ t2, applyOp hash t op = some t2 := by
      cases op with
      | put key value => exact Put_isSome hash hrange t key value hcap
      | remove key =>
        have hr := hrange key t.buckets_.length hcap
        obtain ⟨bucket, hb, -⟩ := bucketAt_isSome_of_range t.buckets_ _ hr.1 hr.2
        unfold applyOp Remove HashTable.hash
        simp only [hb]
        cases bucket with
        | nil => exact ⟨_, rfl⟩
        | cons pair tail =>
          simp only [List.isEmpty_cons, Bool.not_false, if_true]
          cases findPair key (pair :: tail) with
          | none => exact ⟨_, rfl⟩
          | some removingPair => exact ⟨_, rfl⟩
    obtain ⟨t2, h2⟩ := hop
    obtain ⟨t1, h1⟩ := ih t2 ((applyOp_fields hash t t2 op h2).2.1 hcap)
    exact ⟨t1, by simp only [runOps, h2, h1]⟩

theorem countPuts_replicate (n : Nat) (key : Int) (value : String) :
    countPuts (List.replicate n (Op.put key value)) = n := by
  induction n with
  | zero => rfl
  | succ n ih => rw [List.replicate_succ, countPuts, ih]

/-- A further `Put(0, "a")` on the table made by `HashTable(1, NaN)` that holds the key 0:
the pair is overwritten, `num_keys_` is incremented, and the test against NaN is false. -/
theorem Put_nan_again (k : Int) :
    Put modHash ⟨Double.nan, k, [[(0, "a")]]⟩ 0 "a"
      = some ⟨Double.nan, wrapInt32 (k + 1), [[(0, "a")]]⟩ := by
  simp [Put, HashTable.hash, modHash, utils.hash, wordHash, bucketAt, putInBucket, putBucket,
    Double.le]

theorem runOps_puts_nan (n : Nat) (k : Int)
    (hk : -2147483648 ≤ k ∧ k < 2147483648) :
    runOps modHash ⟨Double.nan, k, [[(0, "a")]]⟩ (List.replicate n (Op.put 0 "a"))
      = some ⟨Double.nan, wrapInt32 (k + n), [[(0, "a")]]⟩ := by
  induction n generalizing k with
  | zero =>
    rw [List.replicate_zero, Nat.cast_zero, add_zero, wrapInt32_of_range k hk.1 hk.2]
    rfl
  | succ n ih =>
    rw [List.replicate_succ]
    simp only [runOps, applyOp, Put_nan_again]
    rw [ih (wrapInt32 (k + 1)) (wrapInt32_range _), wrapInt32_add]
    push_cast
    rw [add_assoc, add_comm (1 : Int) (n : Int)]

/-- The table after `n + 1` calls `Put(0, "a")` on the table made by `HashTable(1, NaN)`. -/
theorem runOps_puts_nan_new (n : Nat) :
    runOps modHash ⟨Double.nan, 0, [[]]⟩ (List.replicate (n + 1) (Op.put 0 "a"))
      = some ⟨Double.nan, wrapInt32 (n + 1), [[(0, "a")]]⟩ := by
  have h1 : Put modHash ⟨Double.nan, 0, [[]]⟩ 0 "a" = some ⟨Double.nan, 1, [[(0, "a")]]⟩ := by
    simp [Put, HashTable.hash, modHash, utils.hash, wordHash, bucketAt, putInBucket,
      putBucket, Double.le]
  rw [List.replicate_succ]
  simp only [runOps, applyOp, h1]
  rw [runOps_puts_nan n 1 (by decide), add_comm (1 : Int) (n : Int)]

/-- C20, as stated: the claim is that `size()` is the number of `Put` calls for every
sequence of calls, never decreases, and that `empty()` stays false after the first `Put`.
`num_keys_` is a 32-bit `int`: on the table made by `HashTable(1, NaN)`, which never grows,
`size()` is 2147483647 after 2147483647 calls `Put(0, "a")`, it is -2147483648 after one
more call, and after 4294967296 calls it is 0, so that `empty()` is true. -/
theorem size_wraps_around :
    Construct 1 Double.nan = some ⟨Double.nan, 0, [[]]⟩ ∧
    runOps modHash ⟨Double.nan, 0, [[]]⟩ (List.replicate 2147483647 (Op.put 0 "a"))
      = some ⟨Double.nan, 2147483647, [[(0, "a")]]⟩ ∧
    runOps modHash ⟨Double.nan, 0, [[]]⟩ (List.replicate 2147483648 (Op.put 0 "a"))
      = some ⟨Double.nan, -2147483648, [[(0, "a")]]⟩ ∧
    countPuts (List.replicate 2147483648 (Op.put 0 "a")) = 2147483648 ∧
    HashTable.size ⟨Double.nan, 2147483647, [[(0, "a")]]⟩ = 2147483647 ∧
    HashTable.size ⟨Double.nan, -2147483648, [[(0, "a")]]⟩ = -2147483648 ∧
    runOps modHash ⟨Double.nan, 0, [[]]⟩ (List.replicate 4294967296 (Op.put 0 "a"))
      = some ⟨Double.nan, 0, [[(0, "a")]]⟩ ∧
    HashTable.empty ⟨Double.nan, 0, [[(0, "a")]]⟩ = true := by
  have w1 : wrapInt32 ((2147483646 : Nat) + 1) = 2147483647 := by decide
  have w2 : wrapInt32 ((2147483647 : Nat) + 1) = -2147483648 := by decide
  have w3 : wrapInt32 ((4294967295 : Nat) + 1) = 0 := by decide
  have h1 := runOps_puts_nan_new 2147483646
  have h2 := runOps_puts_nan_new 2147483647
  have h3 := runOps_puts_nan_new 4294967295
  rw [w1] at h1
  rw [w2] at h2
  rw [w3] at h3
  exact ⟨by decide, h1, h2, countPuts_replicate _ _ _, rfl, rfl, h3, rfl⟩

/-- C20, amended: after any sequence of `Put` and `Remove` calls on a new table, `size()`
is the number of `Put` calls in the sequence reduced to the range of a 32-bit `int`.  When
the sequence has fewer than `2^31` calls of `Put`, `size()` is that number, the size after
a prefix of the sequence is at most the size after the whole sequence, and `empty()` is
false as soon as the sequence has a `Put`. -/
theorem size_counts_puts (hash : Int → Nat → Int) (capacity : Int) (load_factor : Double)
    (t0 t : HashTable) (ops : List Op)
    (hc : Construct capacity load_factor = some t0) (hrun : runOps hash t0 ops = some t) :
    t.size = wrapInt32 (countPuts ops) ∧
    (countPuts ops < 2147483648 →
      t.size = countPuts ops ∧
      (∀ (ops1 ops2 : List Op) (t1 : HashTable), ops = ops1 ++ ops2 →
        runOps hash t0 ops1 = some t1 → t1.size ≤ t.size) ∧
      (0 < countPuts ops → t.empty = false)) := by
  obtain ⟨-, -, -, ht0⟩ := Construct_eq_some capacity load_factor t0 hc
  have h0 : t0.num_keys_ = 0 := by rw [ht0]; rfl
  have hr0 : -2147483648 ≤ t0.num_keys_ ∧ t0.num_keys_ < 2147483648 := by
    rw [h0]; decide
  have hwrap : ∀ (ops1 : List Op) (t1 : HashTable), runOps hash t0 ops1 = some t1 →
      t1.size = wrapInt32 (countPuts ops1) := by
    intro ops1 t1 h1
    unfold HashTable.size
    rw [(runOps_fields hash ops1 t0 t1 h1).2.2 hr0, h0, zero_add]
  have hsmall : ∀ (ops1 : List Op) (t1 : HashTable), runOps hash t0 ops1 = some t1 →
      countPuts ops1 < 2147483648 → t1.size = countPuts ops1 := by
    intro ops1 t1 h1 hlt
    rw [hwrap ops1 t1 h1]
    exact wrapInt32_of_range _ (by omega) (by omega)
  refine ⟨hwrap ops t hrun, fun hlt => ⟨hsmall ops t hrun hlt, ?_, ?_⟩⟩
  · intro ops1 ops2 t1 hsplit hrun1
    have hcount : countPuts ops = countPuts ops1 + countPuts ops2 := by
      rw [hsplit]
      clear hsplit hrun1
      induction ops1 with
      | nil => simp [countPuts]
      | cons op rest ih =>
        rw [List.cons_append, countPuts_cons op (rest ++ ops2), countPuts_cons op rest, ih,
          Nat.add_assoc]
    rw [hsmall ops t hrun hlt, hsmall ops1 t1 hrun1 (by omega)]
    omega
  · intro hpos
    unfold HashTable.empty
    rw [hsmall ops t hrun hlt]
    simp only [beq_eq_false_iff_ne, ne_eq]
    omega

theorem size_counts_puts_witness :
    Construct 2 (Double.finite 1) = some ⟨Double.finite 1, 0, [[], []]⟩ ∧
    runOps modHash ⟨Double.finite 1, 0, [[], []]⟩ [Op.put 0 "a", Op.put 2 "b", Op.remove 0]
      = some ⟨Double.finite 1, 2, [[(2, "b")], [], [], []]⟩ ∧
    (HashTable.size ⟨Double.finite 1, 2, [[(2, "b")], [], [], []]⟩
      = wrapInt32 (countPuts [Op.put 0 "a", Op.put 2 "b", Op.remove 0]) ∧
    (countPuts [Op.put 0 "a", Op.put 2 "b", Op.remove 0] < 2147483648 →
      HashTable.size ⟨Double.finite 1, 2, [[(2, "b")], [], [], []]⟩
        = countPuts [Op.put 0 "a", Op.put 2 "b", Op.remove 0] ∧
      (∀ (ops1 ops2 : List Op) (t1 : HashTable),
        [Op.put 0 "a", Op.put 2 "b", Op.remove 0] = ops1 ++ ops2 →
        runOps modHash ⟨Double.finite 1, 0, [[], []]⟩ ops1 = some t1 →
        t1.size ≤ HashTable.size ⟨Double.finite 1, 2, [[(2, "b")], [], [], []]⟩) ∧
      (0 < countPuts [Op.put 0 "a", Op.put 2 "b", Op.remove 0] →
        HashTable.empty ⟨Double.finite 1, 2, [[(2, "b")], [], [], []]⟩ = false))) :=
  ⟨by decide, runOps_example,
    size_counts_puts modHash 2 (Double.finite 1) ⟨Double.finite 1, 0, [[], []]⟩
      ⟨Double.finite 1, 2, [[(2, "b")], [], [], []]⟩
      [Op.put 0 "a", Op.put 2 "b", Op.remove 0] (by decide) runOps_example⟩

theorem Search_isSome (hash : Int → Nat → Int)
    (hrange : ∀ (key : Int) (n : Nat), 0 < n → 0 ≤ hash key n ∧ hash key n < n)
    (t : HashTable) (key : Int) (hcap : 0 < t.buckets_.length) :
    ∃ result, Search hash t key = some result := by
  have hr := hrange key t.buckets_.length hcap
  obtain ⟨bucket, hb, -⟩ := bucketAt_isSome_of_range t.buckets_ _ hr.1 hr.2
  exact ⟨_, Search_of_bucketAt hash t key bucket hb⟩

theorem Remove_isSome (hash : Int → Nat → Int)
    (hrange : ∀ (key : Int) (n : Nat), 0 < n → 0 ≤ hash key n ∧ hash key n < n)
    (t : HashTable) (key : Int) (hcap : 0 < t.buckets_.length) :
    ∃ result t1, Remove hash t key = some (result, t1) := by
  have hr := hrange key t.buckets_.length hcap
  obtain ⟨bucket, hb, -⟩ := bucketAt_isSome_of_range t.buckets_ _ hr.1 hr.2
  unfold Remove HashTable.hash
  simp only [hb]
  cases bucket with
  | nil => exact ⟨_, _, rfl⟩
  | cons pair rest =>
    simp only [List.isEmpty_cons, Bool.not_false, if_true]
    cases findPair key (pair :: rest) with
    | none => exact ⟨_, _, rfl⟩
    | some removingPair => exact ⟨_, _, rfl⟩

/-- C17: totality.  When `hash(key, n)` lies in `[0, n)` for every `n > 0`, then on every
reachable table and for every key `Search`, `ContainsKey`, `Put` and `Remove` return: no
bucket access is out of range, the resize loop included, and the capacity that `Put`
divides by is positive. -/
theorem operations_total (hash : Int → Nat → Int) (t : HashTable) (key : Int)
    (hrange : ∀ (key : Int) (n : Nat), 0 < n → 0 ≤ hash key n ∧ hash key n < n)
    (hreach : Reachable hash t) :
    (∃ result, Search hash t key = some result) ∧
    (∃ found, ContainsKey hash t key = some found) ∧
    (∀ value, ∃ t1, Put hash t key value = some t1) ∧
    (∃ result t1, Remove hash t key = some (result, t1)) ∧
    0 < t.capacity := by
  have hcap := Reachable_capacity_pos hash t hreach
  obtain ⟨result, hs⟩ := Search_isSome hash hrange t key hcap
  refine ⟨⟨result, hs⟩, ⟨result.isSome, ?_⟩,
    fun value => Put_isSome hash hrange t key value hcap,
    Remove_isSome hash hrange t key hcap, hcap⟩
  unfold ContainsKey
  rw [hs]
  rfl

theorem operations_total_witness :
    (∀ (key : Int) (n : Nat), 0 < n → 0 ≤ modHash key n ∧ modHash key n < n) ∧
    Reachable modHash ⟨Double.finite 1, 2, [[], [(1, "a"), (5, "b")], [], []]⟩ ∧
    ((∃ result, Search modHash ⟨Double.finite 1, 2, [[], [(1, "a"), (5, "b")], [], []]⟩ (-7) = some result) ∧
    (∃ found,
      ContainsKey modHash ⟨Double.finite 1, 2, [[], [(1, "a"), (5, "b")], [], []]⟩ (-7) = some found) ∧
    (∀ value, ∃ t1,
      Put modHash ⟨Double.finite 1, 2, [[], [(1, "a"), (5, "b")], [], []]⟩ (-7) value = some t1) ∧
    (∃ result t1,
      Remove modHash ⟨Double.finite 1, 2, [[], [(1, "a"), (5, "b")], [], []]⟩ (-7) = some (result, t1)) ∧
    0 < HashTable.capacity ⟨Double.finite 1, 2, [[], [(1, "a"), (5, "b")], [], []]⟩) :=
  ⟨modHash_range, Reachable_example,
    operations_total modHash ⟨Double.finite 1, 2, [[], [(1, "a"), (5, "b")], [], []]⟩ (-7)
      modHash_range Reachable_example⟩

/-- C15: per-bucket key uniqueness.  In every reachable table, whatever the hash function,
no bucket holds two pairs with the same key: the keys of a bucket are pairwise different,
and two pairs of one bucket with the same key are the same pair. -/
theorem bucket_keys_unique (hash : Int → Nat → Int) (t : HashTable)
    (hreach : Reachable hash t) :
    ∀ bucket ∈ t.buckets_,
      bucket.Pairwise (fun p q => p.1 ≠ q.1) ∧
      ∀ p ∈ bucket, ∀ q ∈ bucket, p.1 = q.1 → p = q := by
  intro bucket hmem
  have hnd : (bucket.map Prod.fst).Nodup := KeysNodup_of_Reachable hash t hreach bucket hmem
  constructor
  · unfold List.Nodup at hnd
    rw [List.pairwise_map] at hnd
    exact hnd
  · intro p hp q hq hpq
    exact List.inj_on_of_nodup_map hnd hp hq hpq

theorem bucket_keys_unique_witness :
    Reachable modHash ⟨Double.finite 1, 2, [[], [(1, "a"), (5, "b")], [], []]⟩ ∧
    ∀ bucket ∈ HashTable.buckets_ ⟨Double.finite 1, 2, [[], [(1, "a"), (5, "b")], [], []]⟩,
      bucket.Pairwise (fun p q => p.1 ≠ q.1) ∧
      ∀ p ∈ bucket, ∀ q ∈ bucket, p.1 = q.1 → p = q :=
  ⟨Reachable_example,
    bucket_keys_unique modHash ⟨Double.finite 1, 2, [[], [(1, "a"), (5, "b")], [], []]⟩ Reachable_example⟩


theorem Search_eq_map (hash : Int → Nat → Int) (t : HashTable) (key : Int) :
    Search hash t key =
      (bucketAt t.buckets_ (hash key t.buckets_.length)).map (searchBucket key) := by
  cases hb : bucketAt t.buckets_ (hash key t.buckets_.length) with
  | none => simp [Search, HashTable.hash, hb]
  | some bucket => rw [Search_of_bucketAt hash t key bucket hb]; rfl

theorem bucketAt_set_ne (buckets : List Bucket) (i j : Int) (old new : Bucket)
    (h : bucketAt buckets i = some old) (hne : j ≠ i) :
    bucketAt (buckets.set i.toNat new) j = bucketAt buckets j := by
  obtain ⟨h0, -⟩ := (bucketAt_eq_some_iff _ _ _).mp h
  unfold bucketAt
  by_cases hj : 0 ≤ j
  · simp only [hj, if_true]
    have hn : i.toNat ≠ j.toNat := by omega
    rw [List.getElem?_set_ne hn]
  · simp only [hj, if_false]

/-- Replacing the bucket of `key` by one with the same answers for every other key leaves
`Search` of every other key as it was. -/
theorem Search_set_frame (hash : Int → Nat → Int) (t t1 : HashTable) (key : Int)
    (old new : Bucket)
    (hb : bucketAt t.buckets_ (hash key t.buckets_.length) = some old)
    (ht1 : t1.buckets_ = t.buckets_.set (hash key t.buckets_.length).toNat new)
    (hsame : ∀ key1, key1 ≠ key → searchBucket key1 new = searchBucket key1 old) :
    ∀ key1, key1 ≠ key → Search hash t1 key1 = Search hash t key1 := by
  intro key1 hne
  rw [Search_eq_map, Search_eq_map, ht1, List.length_set]
  by_cases hidx : hash key1 t.buckets_.length = hash key t.buckets_.length
  · rw [hidx, bucketAt_set _ _ _ _ hb, hb]
    simp only [Option.map_some', hsame key1 hne]
  · rw [bucketAt_set_ne _ _ _ _ _ hb hidx]

theorem searchBucket_listRemove_ne (key1 : Int) (bucket : Bucket) (pair : Int × String)
    (hne : key1 ≠ pair.1) :
    searchBucket key1 (listRemove bucket pair) = searchBucket key1 bucket := by
  induction bucket with
  | nil => rfl
  | cons head rest ih =>
    unfold listRemove at ih ⊢
    by_cases hp : head = pair
    · subst hp
      have hk : ¬ head.1 = key1 := fun e => hne e.symm
      simp only [List.filter_cons, decide_True, Bool.not_true, Bool.false_eq_true, if_false,
        searchBucket, hk]
      exact ih
    · simp only [List.filter_cons, hp, decide_False, Bool.not_false, if_true, searchBucket]
      rw [ih]

theorem findPair_key (key : Int) (bucket : Bucket) (pair : Int × String)
    (h : findPair key bucket = some pair) : pair.1 = key := by
  induction bucket with
  | nil => simp [findPair] at h
  | cons head rest ih =>
    by_cases hk : head.1 = key
    · simp only [findPair, hk, if_true, Option.some.injEq] at h
      rw [← h]; exact hk
    · simp only [findPair, hk, if_false] at h
      exact ih h

/-- C18: `Remove` frame.  `Remove(key)` returns, leaves `capacity()` as it was, and leaves
`Search` of every key other than `key` as it was. -/
theorem Remove_frame (hash : Int → Nat → Int) (t : HashTable) (key : Int)
    (hrange : ∀ (key : Int) (n : Nat), 0 < n → 0 ≤ hash key n ∧ hash key n < n)
    (hcap : 0 < t.capacity) :
    ∃ result t1, Remove hash t key = some (result, t1) ∧
      t1.capacity = t.capacity ∧
      ∀ key1, key1 ≠ key → Search hash t1 key1 = Search hash t key1 := by
  obtain ⟨result, t1, hrem⟩ := Remove_isSome hash hrange t key hcap
  refine ⟨result, t1, hrem, (Remove_capacity hash t t1 key result hrem).1, ?_⟩
  obtain ⟨bucket, hb, hcase⟩ := Remove_eq_some hash t t1 key result hrem
  rcases hcase with ⟨removingPair, hf, -, ht⟩ | ⟨-, -, ht⟩
  · have hk := findPair_key key bucket removingPair hf
    refine Search_set_frame hash t t1 key bucket (listRemove bucket removingPair) hb
      (by rw [ht]) ?_
    intro key1 hne
    exact searchBucket_listRemove_ne key1 bucket removingPair (by rw [hk]; exact hne)
  · intro key1 _
    rw [ht]

theorem Remove_frame_witness :
    (∀ (key : Int) (n : Nat), 0 < n → 0 ≤ modHash key n ∧ modHash key n < n) ∧
    0 < HashTable.capacity ⟨Double.finite 1, 2, [[], [(1, "a"), (5, "b")], [], []]⟩ ∧
    ∃ result t1,
      Remove modHash ⟨Double.finite 1, 2, [[], [(1, "a"), (5, "b")], [], []]⟩ 1 = some (result, t1) ∧
      t1.capacity = HashTable.capacity ⟨Double.finite 1, 2, [[], [(1, "a"), (5, "b")], [], []]⟩ ∧
      ∀ key1, key1 ≠ 1 →
        Search modHash t1 key1
          = Search modHash ⟨Double.finite 1, 2, [[], [(1, "a"), (5, "b")], [], []]⟩ key1 :=
  ⟨modHash_range, by decide,
    Remove_frame modHash ⟨Double.finite 1, 2, [[], [(1, "a"), (5, "b")], [], []]⟩ 1 modHash_range
      (by decide)⟩

theorem putInBucket_nil (key : Int) (value : String) :
    putInBucket key value [] = [(key, value)] := rfl

theorem putInBucket_cons (key : Int) (value : String) (pair : Int × String) (rest : Bucket) :
    putInBucket key value (pair :: rest) =
      if pair.1 = key then (pair.1, value) :: rest
      else pair :: putInBucket key value rest := by
  rw [putInBucket_eq, putInBucket_eq]
  by_cases hk : pair.1 = key
  · simp [putBucket, hk]
  · simp only [putBucket, hk, if_false]
    cases (putBucket key value rest).2 <;> simp

theorem searchBucket_putInBucket_self (key : Int) (value : String) (bucket : Bucket) :
    searchBucket key (putInBucket key value bucket) = some value := by
  induction bucket with
  | nil => simp [putInBucket_nil, searchBucket]
  | cons pair rest ih =>
    rw [putInBucket_cons]
    by_cases hk : pair.1 = key
    · simp [hk, searchBucket]
    · simp [hk, searchBucket, ih]

theorem searchBucket_putInBucket_ne (key key1 : Int) (value : String) (bucket : Bucket)
    (hne : key1 ≠ key) :
    searchBucket key1 (putInBucket key value bucket) = searchBucket key1 bucket := by
  induction bucket with
  | nil =>
    have : ¬ key = key1 := fun e => hne e.symm
    simp [putInBucket_nil, searchBucket, this]
  | cons pair rest ih =>
    rw [putInBucket_cons]
    by_cases hk : pair.1 = key
    · have : ¬ key = key1 := fun e => hne e.symm
      simp [hk, searchBucket, this]
    · by_cases hk1 : pair.1 = key1
      · simp [hk, searchBucket, hk1, hne]
      · simp [hk, searchBucket, hk1, ih]

/-- C19: `Put` without growth is a map update.  When `Put(key, value)` does not trigger
a resize, that is when the test `size after the call / capacity >= load_factor` of the
code is false, the call returns a table of the same capacity in which `Search(key)`
returns `value` and `Search` of every other key is as it was. -/
theorem Put_no_growth_update (hash : Int → Nat → Int) (t : HashTable) (key : Int)
    (value : String)
    (hrange : ∀ (key : Int) (n : Nat), 0 < n → 0 ≤ hash key n ∧ hash key n < n)
    (hcap : 0 < t.capacity)
    (hbelow : Double.le t.load_factor (fdiv (wrapInt32 (t.size + 1)) t.capacity) = false) :
    ∃ t1, Put hash t key value = some t1 ∧
      t1.size = wrapInt32 (t.size + 1) ∧ t1.capacity = t.capacity ∧
      Search hash t1 key = some (some value) ∧
      ∀ key1, key1 ≠ key → Search hash t1 key1 = Search hash t key1 := by
  obtain ⟨t1, hput⟩ := Put_isSome hash hrange t key value hcap
  obtain ⟨bucket, hb, -, hnum, hcase⟩ := Put_eq_some hash t t1 key value hput
  have hno : ¬ (Double.le t.load_factor_
      (fdiv (wrapInt32 (t.num_keys_ + 1)) t.buckets_.length) = true) := by
    intro hyes
    unfold HashTable.load_factor HashTable.size HashTable.capacity at hbelow
    rw [hyes] at hbelow
    exact absurd hbelow (by decide)
  rcases hcase with ⟨hg, -⟩ | ⟨-, hr⟩
  · exact absurd hg hno
  · refine ⟨t1, hput, hnum, ?_, ?_, ?_⟩
    · unfold HashTable.capacity
      rw [hr, List.length_set]
    · rw [Search_eq_map, hr, List.length_set, bucketAt_set _ _ _ _ hb]
      simp only [Option.map_some', searchBucket_putInBucket_self]
    · exact Search_set_frame hash t t1 key bucket (putInBucket key value bucket) hb hr
        (fun key1 hne => searchBucket_putInBucket_ne key key1 value bucket hne)

theorem Put_no_growth_update_witness :
    (∀ (key : Int) (n : Nat), 0 < n → 0 ≤ modHash key n ∧ modHash key n < n) ∧
    0 < HashTable.capacity ⟨Double.finite 1, 2, [[], [(1, "a"), (5, "b")], [], []]⟩ ∧
    Double.le (HashTable.load_factor ⟨Double.finite 1, 2, [[], [(1, "a"), (5, "b")], [], []]⟩)
      (fdiv (wrapInt32
          (HashTable.size ⟨Double.finite 1, 2, [[], [(1, "a"), (5, "b")], [], []]⟩ + 1))
        (HashTable.capacity ⟨Double.finite 1, 2, [[], [(1, "a"), (5, "b")], [], []]⟩))
      = false ∧
    ∃ t1, Put modHash ⟨Double.finite 1, 2, [[], [(1, "a"), (5, "b")], [], []]⟩ 5 "c"
        = some t1 ∧
      t1.size = wrapInt32
        (HashTable.size ⟨Double.finite 1, 2, [[], [(1, "a"), (5, "b")], [], []]⟩ + 1) ∧
      t1.capacity
        = HashTable.capacity ⟨Double.finite 1, 2, [[], [(1, "a"), (5, "b")], [], []]⟩ ∧
      Search modHash t1 5 = some (some "c") ∧
      ∀ key1, key1 ≠ 5 →
        Search modHash t1 key1
          = Search modHash ⟨Double.finite 1, 2, [[], [(1, "a"), (5, "b")], [], []]⟩ key1 :=
  ⟨modHash_range, by decide,
    by simp [HashTable.size, HashTable.capacity, HashTable.load_factor]; norm_num,
    Put_no_growth_update modHash ⟨Double.finite 1, 2, [[], [(1, "a"), (5, "b")], [], []]⟩
      5 "c" modHash_range (by decide)
      (by simp [HashTable.size, HashTable.capacity, HashTable.load_factor]; norm_num)⟩


/-- C11: the claim is that `size()` is the number of stored pairs, which is also the length
of `values()`.  On a new table of capacity 4 with load factor 1, after `Put(1, "a")` and
`Remove(1)` no pair is stored and `values()` is empty, and `size()` is 1. -/
theorem size_differs_from_pair_count :
    Construct 4 (Double.finite 1) = some ⟨Double.finite 1, 0, [[], [], [], []]⟩ ∧
    runOps modHash ⟨Double.finite 1, 0, [[], [], [], []]⟩ [Op.put 1 "a", Op.remove 1]
      = some ⟨Double.finite 1, 1, [[], [], [], []]⟩ ∧
    HashTable.size ⟨Double.finite 1, 1, [[], [], [], []]⟩ = 1 ∧
    pairCount ⟨Double.finite 1, 1, [[], [], [], []]⟩ = 0 ∧
    values ⟨Double.finite 1, 1, [[], [], [], []]⟩ = [] := by
  refine ⟨by decide, ?_, by decide, by decide, by decide⟩
  have h1 : Put modHash ⟨Double.finite 1, 0, [[], [], [], []]⟩ 1 "a"
      = some ⟨Double.finite 1, 1, [[], [(1, "a")], [], []]⟩ := by
    simp [Put, HashTable.hash, modHash, utils.hash, wordHash, bucketAt, putInBucket, putBucket]
    norm_num
  have h2 : Remove modHash ⟨Double.finite 1, 1, [[], [(1, "a")], [], []]⟩ 1
      = some (some "a", ⟨Double.finite 1, 1, [[], [], [], []]⟩) := by decide
  simp only [runOps, applyOp, h1, h2, Option.map_some']

/-- C13: the claim is that a resize keeps every pair.  On a new table of capacity 2 with
load factor 1, after `Put(0, "a")`, `Put(2, "b")`, `Remove(0)` and `Put(10, "c")` the
buckets at indices 0 and 2 of 4 hold `(2, "b")` and `(10, "c")`.  `Put(1, "d")` resizes to
8 buckets; both buckets are stored at index 2, the second over the first, and the pair
`(2, "b")` is in no bucket afterwards. -/
theorem resize_drops_bucket :
    Construct 2 (Double.finite 1) = some ⟨Double.finite 1, 0, [[], []]⟩ ∧
    runOps modHash ⟨Double.finite 1, 0, [[], []]⟩
        [Op.put 0 "a", Op.put 2 "b", Op.remove 0, Op.put 10 "c"]
      = some ⟨Double.finite 1, 3, [[(2, "b")], [], [(10, "c")], []]⟩ ∧
    Put modHash ⟨Double.finite 1, 3, [[(2, "b")], [], [(10, "c")], []]⟩ 1 "d"
      = some ⟨Double.finite 1, 4, [[], [(1, "d")], [(10, "c")], [], [], [], [], []]⟩ ∧
    resize modHash [[(2, "b")], [(1, "d")], [(10, "c")], []]
      = some [[], [(1, "d")], [(10, "c")], [], [], [], [], []] ∧
    (2, "b") ∈ allPairs [[(2, "b")], [(1, "d")], [(10, "c")], []] ∧
    (2, "b") ∉ allPairs [[], [(1, "d")], [(10, "c")], [], [], [], [], []] ∧
    values ⟨Double.finite 1, 4, [[], [(1, "d")], [(10, "c")], [], [], [], [], []]⟩ = ["d", "c"] := by
  have h4 : Put modHash ⟨Double.finite 1, 2, [[(2, "b")], [], [], []]⟩ 10 "c"
      = some ⟨Double.finite 1, 3, [[(2, "b")], [], [(10, "c")], []]⟩ := by
    simp [Put, HashTable.hash, modHash, utils.hash, wordHash, bucketAt, putInBucket, putBucket]
    norm_num
  refine ⟨by decide, ?_, ?_, by decide, by decide, by decide, by decide⟩
  · have happ := runOps_append modHash [Op.put 0 "a", Op.put 2 "b", Op.remove 0]
      [Op.put 10 "c"] ⟨Double.finite 1, 0, [[], []]⟩
    rw [runOps_example] at happ
    simpa [runOps, applyOp, h4] using happ
  · simp [Put, HashTable.hash, modHash, utils.hash, wordHash, bucketAt, putInBucket, putBucket,
      resize, redistribute, kGrowthCoefficient, List.replicate]

/-- C14: the claim is that every pair sits in the bucket at the index of its key.  On a new
table of capacity 2 with load factor 1, `Put(1, "a")` and then `Put(3, "b")`: the second
call resizes to capacity 4 and stores the old bucket whole at index 1, so the pair
`(3, "b")` is in the bucket at index 1 while the index of key 3 is 3. -/
theorem resize_misplaces_pair :
    Construct 2 (Double.finite 1) = some ⟨Double.finite 1, 0, [[], []]⟩ ∧
    runOps modHash ⟨Double.finite 1, 0, [[], []]⟩ [Op.put 1 "a", Op.put 3 "b"]
      = some ⟨Double.finite 1, 2, [[], [(1, "a"), (3, "b")], [], []]⟩ ∧
    bucketAt (HashTable.buckets_ ⟨Double.finite 1, 2, [[], [(1, "a"), (3, "b")], [], []]⟩) 1
      = some [(1, "a"), (3, "b")] ∧
    HashTable.hash modHash ⟨Double.finite 1, 2, [[], [(1, "a"), (3, "b")], [], []]⟩ 3 = 3 := by
  refine ⟨by decide, ?_, by decide, by decide⟩
  have h1 : Put modHash ⟨Double.finite 1, 0, [[], []]⟩ 1 "a" = some ⟨Double.finite 1, 1, [[], [(1, "a")]]⟩ := by
    simp [Put, HashTable.hash, modHash, utils.hash, wordHash, bucketAt, putInBucket, putBucket]
    norm_num
  have h2 : Put modHash ⟨Double.finite 1, 1, [[], [(1, "a")]]⟩ 3 "b"
      = some ⟨Double.finite 1, 2, [[], [(1, "a"), (3, "b")], [], []]⟩ := by
    simp [Put, HashTable.hash, modHash, utils.hash, wordHash, bucketAt, putInBucket, putBucket,
      resize, redistribute, kGrowthCoefficient, List.replicate]
  simp only [runOps, applyOp, h1, h2]

end itis
